import Mathlib

/-!
# Row-partitioned CSR conjugate-gradient solver

A shallow embedding of the C sources `cg_solver.c`, `sparse_ops.c`, `vector_ops.c`,
`csr_io.c` and `main.c`.

Conventions of the embedding.

* C `int` values are `Int`; `/` on `int` is `Int.tdiv` (truncation toward zero).  The
  `int` additions, subtractions and multiplications of the partition arithmetic wrap
  around to 32 bits (`wrap32`); a statement that needs their exact values carries the
  bound `global_n + p - 1 < 2^31` (`fits_int`).
* `double` values are elements of an arbitrary linearly ordered field `K` (exact
  arithmetic); concrete runs are evaluated over `ℚ`.
* A C array is a `List`.  An access through a data-dependent index (`ptr[i]`, `cols[j]`,
  `vals[j]`, `x_global[cols[j]]`) is checked and yields `none` outside the array.  An
  access `a[i]` by the counter of a loop `for (i = 0; i < n; i++)` over an array of `n`
  entries is `a.getD i 0`, and such a loop that assigns `a[i]` for every `i < n` yields
  the list of the `n` assigned values.
* The `P` processes of an SPMD run execute in lockstep; the state of a run is the list of
  the per-rank states, and a collective is a function of the contributions of all ranks.
-/

namespace CsrCg

/-! ## Row partition arithmetic -/

/-- The 32-bit `int` that holds the result of an `int` operation whose exact value is `x`:
two's-complement wrap-around into `[-2^31, 2^31)`. -/
def wrap32 (x : Int) : Int := (x + 2147483648) % 4294967296 - 2147483648

/-- The block size `int rows_per_proc = (global_n + p - 1) / p;`
(cg_solver.c:35, csr_io.c:47, main.c:174), computed in `int`: the sum `global_n + p`, then
`- 1`, then the truncating division. -/
def rows_per_proc (global_n p : Int) : Int := (wrap32 (wrap32 (global_n + p) - 1)).tdiv p

/-- Entry `displs[i]` of the table built by cg_solver.c:36-41:
`int start = i * rows_per_proc; ... displs[i] = start;`. -/
def cg_solver.displs (global_n p i : Int) : Int := wrap32 (i * rows_per_proc global_n p)

/-- The local `end` of cg_solver.c:38:
`(start + rows_per_proc > global_n) ? global_n : start + rows_per_proc`. -/
def cg_solver.block_end (global_n p i : Int) : Int :=
  if wrap32 (cg_solver.displs global_n p i + rows_per_proc global_n p) > global_n then
    global_n
  else wrap32 (cg_solver.displs global_n p i + rows_per_proc global_n p)

/-- Entry `recvcounts[i]` of the table built by cg_solver.c:36-41:
`recvcounts[i] = end - start;`. -/
def cg_solver.recvcounts (global_n p i : Int) : Int :=
  wrap32 (cg_solver.block_end global_n p i - cg_solver.displs global_n p i)

/-- The loader's `int row_start = rank * rows_per_proc;` (csr_io.c:48). -/
def read_csr_parallel.row_start (n p rank : Int) : Int := wrap32 (rank * rows_per_proc n p)

/-- The loader's `int row_end = (rank == p - 1) ? n : (rank + 1) * rows_per_proc;`
(csr_io.c:49). -/
def read_csr_parallel.row_end (n p rank : Int) : Int :=
  if rank = wrap32 (p - 1) then n else wrap32 (wrap32 (rank + 1) * rows_per_proc n p)

/-- The loader's `*local_n = row_end - row_start;` (csr_io.c:51). -/
def read_csr_parallel.local_n (n p rank : Int) : Int :=
  wrap32 (read_csr_parallel.row_end n p rank - read_csr_parallel.row_start n p rank)

/-- The right-hand side slice of main.c:133,
`memcpy(b, full_b + rank * local_n, local_n * sizeof(double));`
where `local_n` is the value the loader returned for this rank and `rank * local_n` is an
`int` product. -/
def main.b_slice {α : Type} (full_b : List α) (rank local_n : Int) : List α :=
  (full_b.drop (wrap32 (rank * local_n)).toNat).take local_n.toNat

/-- The rows `[row_start, row_start + local_n)` of a full vector: the slice that belongs
to the row range the loader assigned (the reference for `main.b_slice`). -/
def row_range_slice {α : Type} (full : List α) (row_start local_n : Int) : List α :=
  (full.drop row_start.toNat).take local_n.toNat


/-! ## Local sparse matrix-vector kernel (sparse_ops.c) -/

/-- A checked read `a[i]` of a C array at an `int` index: `none` outside `[0, length)`. -/
def rd {α : Type} (a : List α) (i : Int) : Option α :=
  if i < 0 then none else a[i.toNat]?

/-- The inner loop of `mat_vec_csr` (sparse_ops.c:13-15),
`for (int j = ptr[i]; j < ptr[i + 1]; j++) y_local[i] += vals[j] * x_global[cols[j]];`
with `cnt` iterations left, the loop variable at `j` and `y_local[i]` holding `acc`. -/
def mat_vec_csr.row {K : Type} [Field K] (cols : List Int) (vals x_global : List K) :
    Nat → Int → K → Option K
  | 0, _, acc => some acc
  | cnt + 1, j, acc =>
    match rd vals j, rd cols j with
    | some v, some c =>
      match rd x_global c with
      | some xv => mat_vec_csr.row cols vals x_global cnt (j + 1) (acc + v * xv)
      | none => none
    | _, _ => none

/-- The function `mat_vec_csr` (sparse_ops.c:8-17) after its outer loop has run for the rows
`0 .. local_n - 1`: the content of `y_local[0 .. local_n)`, or `none` when some access
left its array.  Row `i` starts from `y_local[i] = 0.0` and runs the inner loop for
`j = ptr[i] .. ptr[i + 1] - 1`.  (The parameter `global_n` of the C function is unused.) -/
def mat_vec_csr {K : Type} [Field K] (ptr cols : List Int) (vals x_global : List K) :
    Nat → Option (List K)
  | 0 => some []
  | i + 1 =>
    match mat_vec_csr ptr cols vals x_global i, rd ptr i, rd ptr (i + 1) with
    | some y, some lo, some hi =>
      match mat_vec_csr.row cols vals x_global (hi - lo).toNat lo 0 with
      | some yi => some (y ++ [yi])
      | none => none
    | _, _, _ => none

/-! ## Vector operations and collectives (vector_ops.c) -/

/-- The function `dot` (vector_ops.c:11-17): the value of `sum` after the loop
`for (int i = 0; i < n; i++) sum += u[i] * v[i];` has run `n` times from `sum = 0.0`. -/
def dot {K : Type} [Field K] (u v : List K) : Nat → K
  | 0 => 0
  | n + 1 => dot u v n + u.getD n 0 * v.getD n 0

/-- The function `dot_allreduce` (vector_ops.c:19-23), `MPI_Allreduce` with `MPI_SUM`:
given the value `local` of every rank (in rank order) it hands every rank their sum. -/
def dot_allreduce {K : Type} [Field K] (locals : List K) : K := locals.sum

/-- Copy `src` into `buf` at offset `off` (one received block of a gather). -/
def blit {K : Type} (buf : List K) (off : Nat) (src : List K) : List K :=
  buf.take off ++ src ++ buf.drop (off + src.length)

/-- The receive side of `MPI_Allgatherv(sendbuf, sendcount, MPI_DOUBLE, recvbuf, recvcounts,
displs, MPI_DOUBLE, comm)` on one rank: the blocks of the ranks `i, i + 1, ...` (each given
as its send buffer and send count) are stored into `buf`, the block of rank `i` at
`displs[i]` with `recvcounts[i]` entries.  The call is erroneous (`none`) when a send count
differs from the receive count, a count or displacement is negative, or a block leaves a
buffer. -/
def MPI_Allgatherv {K : Type} (recvcounts displs : Int → Int) :
    List (List K × Int) → Nat → List K → Option (List K)
  | [], _, buf => some buf
  | (sendbuf, sendcount) :: rest, i, buf =>
    if sendcount = recvcounts i ∧ 0 ≤ sendcount ∧ sendcount.toNat ≤ sendbuf.length ∧
        0 ≤ displs i ∧ (displs i + recvcounts i).toNat ≤ buf.length then
      MPI_Allgatherv recvcounts displs rest (i + 1)
        (blit buf (displs i).toNat (sendbuf.take sendcount.toNat))
    else none

/-! ## The CG solver (cg_solver.c) -/

/-- The read-only arguments of `cg_solver` on one rank (cg_solver.c:14-16): the local CSR
slice `ptr`, `cols`, `vals`, the local right-hand side `b` and `local_n`.  `local_nnz` is
unused by the function.  A negative `local_n` makes the `calloc` calls fail and the run
abort before anything is computed, so `local_n` is a natural number here. -/
structure Slice (K : Type) where
  ptr : List Int
  cols : List Int
  vals : List K
  b : List K
  local_n : Nat
deriving DecidableEq

/-- The arguments of `cg_solver` on one rank: the read-only ones and the in-out array `x`
(initial guess on input).  `rank` is the position in the list of ranks, `p` the length of
that list, and `global_n`, `max_iter`, `tol` are common to all ranks. -/
structure Args (K : Type) where
  A : Slice K
  x : List K
deriving DecidableEq

/-- The arrays of `cg_solver` on one rank: its arguments and the buffers `r`, `d`, `q`,
`x_global` it allocates (cg_solver.c:17-20). -/
structure Rank (K : Type) where
  A : Slice K
  x : List K
  r : List K
  d : List K
  q : List K
  x_global : List K
deriving DecidableEq

/-- The state of a run of `cg_solver` on all ranks: the per-rank arrays and the scalars
`delta`, `delta0`, `iter`, which hold the same value on every rank because they are results
of `dot_allreduce`; `breakdown` records that the loop was left through the `break` of
cg_solver.c:71. -/
structure Run (K : Type) where
  ranks : List (Rank K)
  delta : K
  delta0 : K
  iter : Nat
  breakdown : Bool
deriving DecidableEq

/-- What can go wrong in a run: an array access out of range, an erroneous
`MPI_Allgatherv` call, a division by zero. -/
inductive Fault where
  | out_of_range
  | mpi_count
  | div_by_zero
deriving DecidableEq, Repr

/-- A checked division `a / b` of two `double`s in exact arithmetic. -/
def fdiv {K : Type} [Field K] [DecidableEq K] (a b : K) : Except Fault K :=
  if b = 0 then Except.error Fault.div_by_zero else Except.ok (a / b)

/-- The `MPI_Allgatherv` call of cg_solver.c:59-60 on every rank: rank `i` sends
`local_n` entries of `d`, and every rank stores the blocks into its own `x_global`. -/
def cg_solver.gather {K : Type} (global_n : Int) (ranks : List (Rank K)) :
    Except Fault (List (Rank K)) :=
  ranks.mapM (fun rk =>
    match MPI_Allgatherv (fun i => cg_solver.recvcounts global_n ranks.length i)
        (fun i => cg_solver.displs global_n ranks.length i)
        (ranks.map (fun s => (s.d, (s.A.local_n : Int)))) 0 rk.x_global with
    | some xg => Except.ok { rk with x_global := xg }
    | none => Except.error Fault.mpi_count)

/-- The call `mat_vec_csr(ptr, cols, vals, x_global, q, local_n, global_n)` on every rank
(cg_solver.c:44 and 62). -/
def cg_solver.matvec {K : Type} [Field K] (ranks : List (Rank K)) :
    Except Fault (List (Rank K)) :=
  ranks.mapM (fun rk =>
    match mat_vec_csr rk.A.ptr rk.A.cols rk.A.vals rk.x_global rk.A.local_n with
    | some q => Except.ok { rk with q := q }
    | none => Except.error Fault.out_of_range)

/-- The arrays of one rank on entry, after the `calloc` calls of cg_solver.c:17-20: `r`,
`d`, `q` hold `local_n` zeros and `x_global` holds `global_n` zeros. -/
def cg_solver.alloc {K : Type} [Field K] (global_n : Nat) (a : Args K) : Rank K :=
  { A := a.A, x := a.x,
    r := List.replicate a.A.local_n 0,
    d := List.replicate a.A.local_n 0,
    q := List.replicate a.A.local_n 0,
    x_global := List.replicate global_n 0 }

/-- The loop `r[i] = b[i] - q[i]; d[i] = r[i];` for `i < local_n` (cg_solver.c:45-48) on
one rank. -/
def cg_solver.init_r_d {K : Type} [Field K] (rk : Rank K) : Rank K :=
  { rk with
    r := (List.range rk.A.local_n).map (fun i => rk.A.b.getD i 0 - rk.q.getD i 0),
    d := (List.range rk.A.local_n).map (fun i => rk.A.b.getD i 0 - rk.q.getD i 0) }

/-- The state at the first evaluation of the loop test (cg_solver.c:17-51): the buffers
`r`, `d`, `q`, `x_global` are zero-initialised by `calloc`, then `q = A * x_global`,
`r[i] = b[i] - q[i]`, `d[i] = r[i]`, `delta = dot_allreduce(dot(r, r, local_n))` and
`delta0 = delta`. -/
def cg_solver.init {K : Type} [Field K] (args : List (Args K)) (global_n : Nat) :
    Except Fault (Run K) :=
  match cg_solver.matvec (args.map (cg_solver.alloc global_n)) with
  | Except.error e => Except.error e
  | Except.ok ranks1 =>
    Except.ok
      { ranks := ranks1.map cg_solver.init_r_d,
        delta := dot_allreduce ((ranks1.map cg_solver.init_r_d).map
          (fun rk => dot rk.r rk.r rk.A.local_n)),
        delta0 := dot_allreduce ((ranks1.map cg_solver.init_r_d).map
          (fun rk => dot rk.r rk.r rk.A.local_n)),
        iter := 0, breakdown := false }

/-- The first half of the loop body (cg_solver.c:59-65): the gather of `d` into `x_global`,
`q = A * x_global`, and the reduced value
`alpha_den = dot_allreduce(dot(d, q, local_n))`, returned with the updated arrays. -/
def cg_solver.alpha_den {K : Type} [Field K] (global_n : Int) (s : Run K) :
    Except Fault (List (Rank K) × K) :=
  match cg_solver.gather global_n s.ranks with
  | Except.error e => Except.error e
  | Except.ok ranks1 =>
    match cg_solver.matvec ranks1 with
    | Except.error e => Except.error e
    | Except.ok ranks2 =>
      Except.ok (ranks2, dot_allreduce (ranks2.map (fun rk => dot rk.d rk.q rk.A.local_n)))

/-- The update `x[i] += alpha * d[i]; r[i] -= alpha * q[i];` for `i < local_n`
(cg_solver.c:77-80) on one rank. -/
def cg_solver.update_x_r {K : Type} [Field K] (alpha : K) (rk : Rank K) : Rank K :=
  { rk with
    x := (List.range rk.A.local_n).map (fun i => rk.x.getD i 0 + alpha * rk.d.getD i 0)
          ++ rk.x.drop rk.A.local_n,
    r := (List.range rk.A.local_n).map (fun i => rk.r.getD i 0 - alpha * rk.q.getD i 0) }

/-- The update `d[i] = r[i] + beta * d[i];` for `i < local_n` (cg_solver.c:85-87) on one
rank. -/
def cg_solver.update_d {K : Type} [Field K] (beta : K) (rk : Rank K) : Rank K :=
  { rk with
    d := (List.range rk.A.local_n).map (fun i => rk.r.getD i 0 + beta * rk.d.getD i 0) }

/-- One pass through the loop body (cg_solver.c:58-94), entered after the loop test
succeeded.  On `alpha_den == 0.0` the body is left through `break` with `x`, `r`, `d`,
`delta` and `iter` untouched; otherwise `alpha = alpha_num / alpha_den`, `x` and `r` are
updated, `delta_new = dot_allreduce(dot(r, r, local_n))`, `beta = delta_new / delta`, `d` is
updated, `delta = delta_new` and `iter` is incremented. -/
def cg_solver.body {K : Type} [Field K] [DecidableEq K] (global_n : Int) (s : Run K) :
    Except Fault (Run K) :=
  match cg_solver.alpha_den global_n s with
  | Except.error e => Except.error e
  | Except.ok (ranks2, alpha_den) =>
    if alpha_den = 0 then
      Except.ok { s with ranks := ranks2, breakdown := true }
    else
      match fdiv s.delta alpha_den with
      | Except.error e => Except.error e
      | Except.ok alpha =>
        match fdiv (dot_allreduce ((ranks2.map (cg_solver.update_x_r alpha)).map
            (fun rk => dot rk.r rk.r rk.A.local_n))) s.delta with
        | Except.error e => Except.error e
        | Except.ok beta =>
          Except.ok
            { s with
              ranks := (ranks2.map (cg_solver.update_x_r alpha)).map (cg_solver.update_d beta),
              delta := dot_allreduce ((ranks2.map (cg_solver.update_x_r alpha)).map
                (fun rk => dot rk.r rk.r rk.A.local_n)),
              iter := s.iter + 1 }

/-- The loop `for (int iter = 0; iter < max_iter && delta > tol * tol * delta0; iter++)`
(cg_solver.c:57) with `fuel = max_iter - iter` passes left. -/
def cg_solver.loop {K : Type} [LinearOrderedField K] (global_n : Int) (tol : K) :
    Nat → Run K → Except Fault (Run K)
  | 0, s => Except.ok s
  | fuel + 1, s =>
    if s.delta > tol * tol * s.delta0 then
      match cg_solver.body global_n s with
      | Except.ok s1 =>
        if s1.breakdown then Except.ok s1 else cg_solver.loop global_n tol fuel s1
      | Except.error e => Except.error e
    else Except.ok s

/-- The function `cg_solver` (cg_solver.c:14-103) run on all ranks: the final state, whose
`x` arrays are what the callers get back.  The argument `p` is the number of ranks
`args.length`; `global_n` is positive in every run (the loader aborts otherwise,
csr_io.c:28) and so a natural number here. -/
def cg_solver {K : Type} [LinearOrderedField K] (args : List (Args K)) (global_n : Nat)
    (max_iter : Int) (tol : K) : Except Fault (Run K) :=
  match cg_solver.init args global_n with
  | Except.ok s => cg_solver.loop global_n tol max_iter.toNat s
  | Except.error e => Except.error e

/-- The state in which the loop test of cg_solver.c:57 is evaluated for the `(k + 1)`-th
time, `k` passes having completed (each entered because its test succeeded, none left
through `break`), provided `max_iter` allows `k` passes; `none` when the run does not get
that far. -/
def cg_solver.at_test {K : Type} [LinearOrderedField K] (args : List (Args K))
    (global_n : Nat) (tol : K) : Nat → Option (Run K)
  | 0 =>
    match cg_solver.init args global_n with
    | Except.ok s => some s
    | Except.error _ => none
  | k + 1 =>
    match cg_solver.at_test args global_n tol k with
    | none => none
    | some s =>
      if s.delta > tol * tol * s.delta0 then
        match cg_solver.body (global_n : Int) s with
        | Except.ok s1 => if s1.breakdown then none else some s1
        | Except.error _ => none
      else none

/-! ## Auxiliary notions used in the statements -/

/-- The clamped block boundary `min(n, i * rows_per_proc)`. -/
def cut (n p i : Int) : Int := min n (i * rows_per_proc n p)

/-- The partition arithmetic of `n` rows over `p` ranks stays within `int`:
`n + p - 1 < 2^31`. -/
def fits_int (n p : Int) : Prop := n + p - 1 < 2147483648

instance (n p : Int) : Decidable (fits_int n p) := by
  unfold fits_int; infer_instance

/-- The block partition of `n` rows over `p` ranks is exact (no block starts beyond row
`n`): `(p - 1) * rows_per_proc <= n`. -/
def exact_cover (n p : Int) : Prop := (p - 1) * rows_per_proc n p ≤ n

instance (n p : Int) : Decidable (exact_cover n p) := by
  unfold exact_cover; infer_instance

/-- The slice of a full vector that the solver's table assigns to rank `i`:
`full[displs[i] .. displs[i] + recvcounts[i])`. -/
def table_slice {α : Type} (full : List α) (n p : Int) (i : Nat) : List α :=
  row_range_slice full (cg_solver.displs n p i) (cg_solver.recvcounts n p i)

/-- The data-model invariant of a local CSR slice with `local_n` rows over `N` columns:
`ptr` has `local_n + 1` entries, `ptr[0] = 0`, `ptr[i + 1] >= ptr[i]`, `cols` and `vals`
hold at least `ptr[local_n]` entries and every column index lies in `[0, N)`. -/
def csr_ok {K : Type} (ptr cols : List Int) (vals : List K) (local_n N : Nat) : Prop :=
  ptr.length = local_n + 1 ∧ ptr.getD 0 0 = 0 ∧
  (∀ i < local_n, ptr.getD i 0 ≤ ptr.getD (i + 1) 0) ∧
  ptr.getD local_n 0 ≤ cols.length ∧ ptr.getD local_n 0 ≤ vals.length ∧
  ∀ c ∈ cols, 0 ≤ c ∧ c < (N : Int)

instance {K : Type} (ptr cols : List Int) (vals : List K) (local_n N : Nat) :
    Decidable (csr_ok ptr cols vals local_n N) := by
  unfold csr_ok; infer_instance

/-- The row sum of the specification,
`Σ_{j in [ptr[i], ptr[i+1])} vals[j] * x_global[cols[j]]`. -/
def row_sum {K : Type} [Field K] (ptr cols : List Int) (vals x_global : List K) (i : Nat) : K :=
  ∑ j ∈ Finset.Ico (ptr.getD i 0).toNat (ptr.getD (i + 1) 0).toNat,
    vals.getD j 0 * x_global.getD (cols.getD j 0).toNat 0

/-- The diagonal slice of the specification with `n` rows: `ptr[i] = i`. -/
def diag_ptr (n : Nat) : List Int := (List.range (n + 1)).map (fun (i : Nat) => (i : Int))

/-- The diagonal slice of the specification with `n` rows: `cols[i] = i`. -/
def diag_cols (n : Nat) : List Int := (List.range n).map (fun (i : Nat) => (i : Int))

/-- The global vector held by the ranks' `x` arrays, in rank order (what the `MPI_Gatherv`
of main.c:183 assembles). -/
def solution {K : Type} (ranks : List (Rank K)) : List K := (ranks.map (fun rk => rk.x)).flatten

/-- The global initial guess: the ranks' `x` arguments in rank order. -/
def initial_guess {K : Type} (args : List (Args K)) : List K :=
  (args.map (fun a => a.x)).flatten

/-- The squared 2-norm of `A X - b`, summed over the local rows of all ranks; row `i` of
`A X` on a rank is the row sum of its CSR slice against the global vector `X`. -/
def residual_sq {K : Type} [Field K] (slices : List (Slice K)) (X : List K) : K :=
  (slices.map (fun A =>
    ∑ i ∈ Finset.range A.local_n,
      (row_sum A.ptr A.cols A.vals X i - A.b.getD i 0) ^ 2)).sum

/-- The Converged exit of the specification: the loop was not left through `break` and
`delta <= tol^2 * delta0` holds on exit. -/
def converged {K : Type} [LinearOrderedField K] (tol : K) (s : Run K) : Prop :=
  s.breakdown = false ∧ s.delta ≤ tol * tol * s.delta0

instance {K : Type} [LinearOrderedField K] (tol : K) (s : Run K) :
    Decidable (converged tol s) := by
  unfold converged; infer_instance

/-- The input of a run is well formed: at least one row and one rank, the partition
arithmetic stays within `int` (`global_n + p - 1 < 2^31`), the block partition of
`global_n` rows over the ranks is exact, the `local_n` of the ranks are the counts of the
solver's table, and on every rank the CSR slice satisfies the data-model invariant and `b`,
`x` hold `local_n` entries. -/
def args_ok {K : Type} (args : List (Args K)) (global_n : Nat) : Prop :=
  1 ≤ global_n ∧ 1 ≤ args.length ∧
  (fits_int global_n args.length ∧ exact_cover global_n args.length) ∧
  args.map (fun a => (a.A.local_n : Int))
    = (List.range args.length).map
        (fun (i : Nat) => cg_solver.recvcounts global_n args.length i) ∧
  ∀ a ∈ args, csr_ok a.A.ptr a.A.cols a.A.vals a.A.local_n global_n ∧
    a.A.b.length = a.A.local_n ∧ a.x.length = a.A.local_n

instance {K : Type} (args : List (Args K)) (global_n : Nat) :
    Decidable (args_ok args global_n) := by
  unfold args_ok; infer_instance

/-- The arrays of a run are well formed: as `args_ok`, and the buffers `r`, `d` hold
`local_n` entries and `x_global` holds `global_n` entries on every rank. -/
def ranks_ok {K : Type} (N : Nat) (ranks : List (Rank K)) : Prop :=
  1 ≤ N ∧ 1 ≤ ranks.length ∧ (fits_int N ranks.length ∧ exact_cover N ranks.length) ∧
  ranks.map (fun rk => (rk.A.local_n : Int))
    = (List.range ranks.length).map
        (fun (i : Nat) => cg_solver.recvcounts N ranks.length i) ∧
  ∀ rk ∈ ranks, csr_ok rk.A.ptr rk.A.cols rk.A.vals rk.A.local_n N ∧
    rk.A.b.length = rk.A.local_n ∧ rk.x.length = rk.A.local_n ∧
    rk.r.length = rk.A.local_n ∧ rk.d.length = rk.A.local_n ∧ rk.x_global.length = N

/-- The global search direction: the ranks' `d` arrays in rank order. -/
def direction {K : Type} (ranks : List (Rank K)) : List K :=
  (ranks.map (fun rk => rk.d)).flatten

/-- The residual the code maintains, on the local rows of one slice: with `X` the current
global iterate and `X0` the global content of `x` on entry,
`b[i] - ((A X)[i] - (A X0)[i])`. -/
def stored_residual {K : Type} [Field K] (A : Slice K) (X X0 : List K) : List K :=
  (List.range A.local_n).map (fun i =>
    A.b.getD i 0 - (row_sum A.ptr A.cols A.vals X i - row_sum A.ptr A.cols A.vals X0 i))

/-- The invariant of the loop of `cg_solver` at its test, for a run started from `args`:
the arrays are well formed, the read-only arguments are those of `args`, no `break` was
taken, `r` is the stored residual on every rank, `delta` is the sum over the ranks of
`dot(r, r)`, and `delta0` is that sum for the initial residual. -/
def cg_inv {K : Type} [Field K] (args : List (Args K)) (N : Nat) (s : Run K) : Prop :=
  ranks_ok N s.ranks ∧ s.ranks.map (fun rk => rk.A) = args.map (fun a => a.A) ∧
  s.breakdown = false ∧
  (∀ rk ∈ s.ranks, rk.r = stored_residual rk.A (solution s.ranks) (initial_guess args)) ∧
  s.delta = dot_allreduce (s.ranks.map (fun rk => dot rk.r rk.r rk.A.local_n)) ∧
  s.delta0 = dot_allreduce (args.map (fun a => dot a.A.b a.A.b a.A.local_n))

/-- One rank after the first half of a pass on well-formed arrays, `D` being the global
direction: `x_global` holds `D` and `q` the row sums against it. -/
def front_rank {K : Type} [Field K] (D : List K) (rk : Rank K) : Rank K :=
  { rk with
    x_global := D,
    q := ((List.range rk.A.local_n).map (row_sum rk.A.ptr rk.A.cols rk.A.vals D)) }

/-- The arrays after the first half of a pass on well-formed arrays. -/
def pass_front {K : Type} [Field K] (ranks : List (Rank K)) : List (Rank K) :=
  ranks.map (front_rank (direction ranks))

/-- One rank after a complete pass with step sizes `alpha`, `beta` on well-formed arrays,
`D` being the global direction on entry. -/
def pass_rank {K : Type} [Field K] (alpha beta : K) (D : List K) (rk : Rank K) : Rank K :=
  cg_solver.update_d beta (cg_solver.update_x_r alpha (front_rank D rk))

/-- The arrays after a complete pass with step sizes `alpha`, `beta` on well-formed
arrays. -/
def pass_next {K : Type} [Field K] (alpha beta : K) (ranks : List (Rank K)) :
    List (Rank K) :=
  ((pass_front ranks).map (cg_solver.update_x_r alpha)).map (cg_solver.update_d beta)

/-- One rank at the first loop test on well-formed input: `q` holds the row sums against
the zeroed `x_global`, and `r`, `d` hold `b - q`. -/
def init_rank {K : Type} [Field K] (N : Nat) (a : Args K) : Rank K :=
  cg_solver.init_r_d (front_rank (List.replicate N 0) (cg_solver.alloc N a))

/-- The entrywise difference `X - X0` of two global vectors. -/
def vec_sub {K : Type} [Field K] (X X0 : List K) : List K :=
  List.zipWith (fun a b => a - b) X X0

/-- The true residual `b - A X` on the local rows of one slice. -/
def true_residual {K : Type} [Field K] (A : Slice K) (X : List K) : List K :=
  (List.range A.local_n).map (fun i => A.b.getD i 0 - row_sum A.ptr A.cols A.vals X i)

/-! ## Concrete inputs -/

deriving instance DecidableEq for Except

/-- The example of the specification: `A = diag(1, 2, 3, 4)` as CSR, `b = [1, 1, 1, 1]`,
`x0 = 0`, on one rank. -/
def diag4_args : List (Args ℚ) :=
  [{ A := { ptr := [0, 1, 2, 3, 4], cols := [0, 1, 2, 3], vals := [1, 2, 3, 4],
            b := [1, 1, 1, 1], local_n := 4 },
     x := [0, 0, 0, 0] }]

/-- The singular matrix `[2 0; 0 0]` as CSR (row 1 is empty), `b = [1, 1]`, `x0 = 0`, on one
rank: the second search direction `d = [0, 2]` has `A d = 0`. -/
def singular2_slice : Slice ℚ :=
  { ptr := [0, 1, 1], cols := [0], vals := [2], b := [1, 1], local_n := 2 }

/-- The run input for `singular2_slice` with the zero initial guess. -/
def singular2_args : List (Args ℚ) := [{ A := singular2_slice, x := [0, 0] }]

/-- The state of the run on `singular2_args` at the second evaluation of the loop test. -/
def singular2_at_test1 : Run ℚ :=
  { ranks := [{ A := singular2_slice, x := [1, 1], r := [-1, 1], d := [0, 2], q := [2, 0],
                x_global := [1, 1] }],
    delta := 2, delta0 := 2, iter := 1, breakdown := false }

/-- The arrays of the run on `singular2_args` after the gather and the matrix-vector
product of its second pass. -/
def singular2_pass2 : List (Rank ℚ) :=
  [{ A := singular2_slice, x := [1, 1], r := [-1, 1], d := [0, 2], q := [0, 0],
     x_global := [0, 2] }]

/-- The system `1 * x = 1` on one rank with initial guess `x0`. -/
def one_by_one_args (x0 : ℚ) : List (Args ℚ) :=
  [{ A := { ptr := [0, 1], cols := [0], vals := [1], b := [1], local_n := 1 }, x := [x0] }]

/-- The system `diag(1, 2, 3, 4) x = [1, 1, 1, 1]` with `x0 = 0` on two ranks of two rows
each. -/
def diag4_two_ranks : List (Args ℚ) :=
  [{ A := { ptr := [0, 1, 2], cols := [0, 1], vals := [1, 2], b := [1, 1], local_n := 2 },
     x := [0, 0] },
   { A := { ptr := [0, 1, 2], cols := [2, 3], vals := [3, 4], b := [1, 1], local_n := 2 },
     x := [0, 0] }]

/-- The final state of the run on `one_by_one_args x0` with one pass done: `x = [x0 + 1]`,
`r = [0]`. -/
def one_by_one_final (x0 : ℚ) : Run ℚ :=
  { ranks := [{ A := { ptr := [0, 1], cols := [0], vals := [1], b := [1], local_n := 1 },
                x := [x0 + 1], r := [0], d := [0], q := [1], x_global := [1] }],
    delta := 0, delta0 := 1, iter := 1, breakdown := false }

/-! ## Partition lemmas -/

theorem wrap32_eq {x : Int} (h0 : -2147483648 ≤ x) (h1 : x < 2147483648) : wrap32 x = x := by
  unfold wrap32; omega

/-- Beyond the `int` bound the code's table is not a partition: for `global_n = 2^31 - 2`
and `p = 3` the sum `global_n + p - 1` wraps, the block size is negative and so are the
counts. -/
theorem table_beyond_int_bound :
    ¬ fits_int 2147483646 3 ∧ rows_per_proc 2147483646 3 = -715827882 ∧
      cg_solver.recvcounts 2147483646 3 0 = -715827882 := by
  decide

/-- Within the `int` bound the block size the code computes is the exact quotient. -/
theorem rows_per_proc_eq_ediv {n p : Int} (hn : 1 ≤ n) (hp : 1 ≤ p) (hf : fits_int n p) :
    rows_per_proc n p = (n + p - 1) / p := by
  unfold fits_int at hf
  unfold rows_per_proc
  have h : wrap32 (wrap32 (n + p) - 1) = n + p - 1 := by unfold wrap32; omega
  rw [h]
  exact Int.tdiv_eq_ediv (by omega) (by omega)

/-- The block size is a ceiling: `n ≤ p * block < n + p`. -/
theorem rows_per_proc_bounds {n p : Int} (hn : 1 ≤ n) (hp : 1 ≤ p) (hf : fits_int n p) :
    n ≤ p * rows_per_proc n p ∧ p * rows_per_proc n p < n + p := by
  rw [rows_per_proc_eq_ediv hn hp hf]
  have h1 := Int.ediv_add_emod (n + p - 1) p
  have h2 := Int.emod_nonneg (n + p - 1) (by omega : p ≠ 0)
  have h3 := Int.emod_lt_of_pos (n + p - 1) (by omega : 0 < p)
  constructor <;> omega

theorem rows_per_proc_pos {n p : Int} (hn : 1 ≤ n) (hp : 1 ≤ p) (hf : fits_int n p) :
    1 ≤ rows_per_proc n p := by
  have h := (rows_per_proc_bounds hn hp hf).1
  by_contra hc
  have : p * rows_per_proc n p ≤ 0 :=
    Int.mul_nonpos_of_nonneg_of_nonpos (by omega) (by omega)
  omega

/-- Within the `int` bound the start and the end of block `i < p` do not overflow. -/
theorem block_in_range {n p i : Int} (hn : 1 ≤ n) (hp : 1 ≤ p) (hf : fits_int n p)
    (hi0 : 0 ≤ i) (hi : i < p) :
    0 ≤ i * rows_per_proc n p ∧
      i * rows_per_proc n p + rows_per_proc n p < 2147483648 := by
  have hb := rows_per_proc_pos hn hp hf
  have hbd := (rows_per_proc_bounds hn hp hf).2
  unfold fits_int at hf
  have h1 : 0 ≤ i * rows_per_proc n p := Int.mul_nonneg hi0 (by omega)
  have h2 : (i + 1) * rows_per_proc n p ≤ p * rows_per_proc n p :=
    Int.mul_le_mul_of_nonneg_right (by omega) (by omega)
  have h3 : (i + 1) * rows_per_proc n p = i * rows_per_proc n p + rows_per_proc n p := by
    ring
  exact ⟨h1, by omega⟩

/-- Within the `int` bound entry `i < p` of `displs` is the exact product. -/
theorem displs_exact {n p i : Int} (hn : 1 ≤ n) (hp : 1 ≤ p) (hf : fits_int n p)
    (hi0 : 0 ≤ i) (hi : i < p) : cg_solver.displs n p i = i * rows_per_proc n p := by
  have hb := rows_per_proc_pos hn hp hf
  obtain ⟨h1, h2⟩ := block_in_range hn hp hf hi0 hi
  unfold cg_solver.displs
  exact wrap32_eq (by omega) (by omega)

theorem block_end_eq_cut {n p i : Int} (hn : 1 ≤ n) (hp : 1 ≤ p) (hf : fits_int n p)
    (hi0 : 0 ≤ i) (hi : i < p) : cg_solver.block_end n p i = cut n p (i + 1) := by
  have hb := rows_per_proc_pos hn hp hf
  obtain ⟨h1, h2⟩ := block_in_range hn hp hf hi0 hi
  unfold cg_solver.block_end
  rw [displs_exact hn hp hf hi0 hi, wrap32_eq (by omega) (by omega)]
  unfold cut
  have h : (i + 1) * rows_per_proc n p = i * rows_per_proc n p + rows_per_proc n p := by ring
  rw [h]
  split_ifs with hc
  · exact (min_eq_left (le_of_lt hc)).symm
  · exact (min_eq_right (not_lt.mp hc)).symm

theorem displs_eq_cut {n p i : Int} (hn : 1 ≤ n) (hp : 1 ≤ p) (hf : fits_int n p)
    (hc : exact_cover n p) (hi0 : 0 ≤ i) (hi : i < p) :
    cg_solver.displs n p i = cut n p i := by
  rw [displs_exact hn hp hf hi0 hi]
  unfold cut
  unfold exact_cover at hc
  have hb := rows_per_proc_pos hn hp hf
  have h : i * rows_per_proc n p ≤ (p - 1) * rows_per_proc n p :=
    Int.mul_le_mul_of_nonneg_right (by omega) (by omega)
  exact (min_eq_right (le_trans h hc)).symm

theorem cut_zero {n p : Int} (hn : 1 ≤ n) : cut n p 0 = 0 := by
  unfold cut
  rw [zero_mul]
  exact min_eq_right (by omega)

theorem cut_last {n p : Int} (hn : 1 ≤ n) (hp : 1 ≤ p) (hf : fits_int n p) :
    cut n p p = n := by
  unfold cut
  exact min_eq_left (rows_per_proc_bounds hn hp hf).1

theorem cut_mono {n p : Int} (hn : 1 ≤ n) (hp : 1 ≤ p) (hf : fits_int n p) (i : Int) :
    cut n p i ≤ cut n p (i + 1) := by
  unfold cut
  have hb := rows_per_proc_pos hn hp hf
  have h : (i + 1) * rows_per_proc n p = i * rows_per_proc n p + rows_per_proc n p := by ring
  rw [h]
  exact min_le_min le_rfl (by omega)

theorem cut_nonneg {n p i : Int} (hn : 1 ≤ n) (hp : 1 ≤ p) (hf : fits_int n p)
    (hi : 0 ≤ i) : 0 ≤ cut n p i := by
  unfold cut
  have hb := rows_per_proc_pos hn hp hf
  exact le_min (by omega) (Int.mul_nonneg hi (by omega))

theorem cut_le (n p i : Int) : cut n p i ≤ n := min_le_left _ _

/-- Within the `int` bound entry `i < p` of `recvcounts` is the exact difference
`end - start`. -/
theorem recvcounts_exact {n p i : Int} (hn : 1 ≤ n) (hp : 1 ≤ p) (hf : fits_int n p)
    (hi0 : 0 ≤ i) (hi : i < p) :
    cg_solver.recvcounts n p i = cut n p (i + 1) - i * rows_per_proc n p := by
  obtain ⟨h1, h2⟩ := block_in_range hn hp hf hi0 hi
  have hb := rows_per_proc_pos hn hp hf
  have h3 := cut_nonneg (i := i + 1) hn hp hf (by omega)
  have h4 := cut_le n p (i + 1)
  unfold fits_int at hf
  unfold cg_solver.recvcounts
  rw [block_end_eq_cut hn hp hf hi0 hi, displs_exact hn hp hf hi0 hi]
  exact wrap32_eq (by omega) (by omega)

/-- On an exact partition entry `i` of the solver's table is the block
`[cut i, cut (i + 1))`. -/
theorem recvcounts_eq_cut {n p i : Int} (hn : 1 ≤ n) (hp : 1 ≤ p) (hf : fits_int n p)
    (hc : exact_cover n p) (hi0 : 0 ≤ i) (hi : i < p) :
    cg_solver.recvcounts n p i = cut n p (i + 1) - cut n p i := by
  rw [recvcounts_exact hn hp hf hi0 hi, ← displs_exact hn hp hf hi0 hi,
    displs_eq_cut hn hp hf hc hi0 hi]

/-- Within the `int` bound an exact partition is what the words "contiguous,
non-overlapping, union `[0, n)`" say about the solver's table, and conversely. -/
theorem exact_cover_iff {n p : Int} (hn : 1 ≤ n) (hp : 1 ≤ p) (hf : fits_int n p) :
    exact_cover n p ↔
      (cg_solver.displs n p 0 = 0 ∧
       (∀ i, 0 ≤ i → i < p → 0 ≤ cg_solver.recvcounts n p i) ∧
       (∀ i, 0 ≤ i → i + 1 < p →
          cg_solver.displs n p (i + 1) = cg_solver.displs n p i + cg_solver.recvcounts n p i) ∧
       cg_solver.displs n p (p - 1) + cg_solver.recvcounts n p (p - 1) = n) := by
  constructor
  · intro hc
    refine ⟨?_, ?_, ?_, ?_⟩
    · rw [displs_exact hn hp hf le_rfl (by omega), zero_mul]
    · intro i hi0 hi
      rw [recvcounts_eq_cut hn hp hf hc hi0 hi]
      have := cut_mono hn hp hf i
      omega
    · intro i hi0 hi
      rw [recvcounts_eq_cut hn hp hf hc hi0 (by omega),
        displs_eq_cut hn hp hf hc (by omega) hi,
        displs_eq_cut hn hp hf hc hi0 (by omega : i < p)]
      omega
    · rw [recvcounts_eq_cut hn hp hf hc (by omega) (by omega),
        displs_eq_cut hn hp hf hc (by omega) (by omega)]
      have := cut_last hn hp hf
      rw [show p - 1 + 1 = p by omega]
      omega
  · rintro ⟨_, h2, _, _⟩
    have h := h2 (p - 1) (by omega) (by omega)
    rw [recvcounts_exact hn hp hf (by omega) (by omega)] at h
    have h3 := cut_le n p (p - 1 + 1)
    unfold exact_cover
    omega

/-! ## C2, C3, C9: the partition as computed by the solver, the loader and `main` -/

/-- C2. The table of `cg_solver` for `global_n = 5`, `p = 4` is not a contiguous cover of
`[0, 5)`: `recvcounts[3]` is negative, `displs[3]` is not `displs[2] + recvcounts[2]`, and
the counts sum to 4. -/
theorem C2_table_5_rows_4_ranks :
    (List.range 4).map (fun i => (cg_solver.displs 5 4 i, cg_solver.recvcounts 5 4 i))
        = [(0, 2), (2, 2), (4, 1), (6, -1)] ∧
      cg_solver.recvcounts 5 4 3 < 0 ∧
      cg_solver.displs 5 4 3 ≠ cg_solver.displs 5 4 2 + cg_solver.recvcounts 5 4 2 ∧
      ((List.range 4).map (fun i => cg_solver.recvcounts 5 4 i)).sum = 4 := by
  decide

/-- C3. For `n = 5`, `p = 4` and rank 2 the loader takes rows `[4, 6)` (`local_n = 2`,
`row_end = 6 > n`, so `full_ptr[6]` lies outside the `n + 1 = 6` offsets read), while the
solver's table gives rank 2 the block at `displs[2] = 4` with `recvcounts[2] = 1`. -/
theorem C3_loader_differs_5_rows_4_ranks :
    read_csr_parallel.row_start 5 4 2 = 4 ∧ read_csr_parallel.row_end 5 4 2 = 6 ∧
      read_csr_parallel.local_n 5 4 2 = 2 ∧
      cg_solver.displs 5 4 2 = 4 ∧ cg_solver.recvcounts 5 4 2 = 1 ∧
      ¬ read_csr_parallel.row_end 5 4 2 ≤ 5 := by
  decide

/-- C9. For `n = 5`, `p = 2` the loader gives rank 1 the rows `[3, 5)`, but `main` copies
`full_b[2 .. 4)` (offset `rank * local_n = 2`) instead of `full_b[3 .. 5)`. -/
theorem C9_b_slice_5_rows_2_ranks :
    read_csr_parallel.row_start 5 2 1 = 3 ∧ read_csr_parallel.local_n 5 2 1 = 2 ∧
      main.b_slice [10, 20, 30, 40, (50 : ℚ)] 1 (read_csr_parallel.local_n 5 2 1) = [30, 40] ∧
      row_range_slice [10, 20, 30, 40, (50 : ℚ)] (read_csr_parallel.row_start 5 2 1)
        (read_csr_parallel.local_n 5 2 1) = [40, 50] := by
  refine ⟨by decide, by decide, ?_, ?_⟩
  · have h : read_csr_parallel.local_n 5 2 1 = 2 := by decide
    rw [h]; rfl
  · have h : read_csr_parallel.local_n 5 2 1 = 2 := by decide
    have h2 : read_csr_parallel.row_start 5 2 1 = 3 := by decide
    rw [h, h2]; rfl

/-! ## C4: the sparse matrix-vector kernel -/

theorem rd_natCast {α : Type} (a : List α) (i : Nat) (d : α) (h : i < a.length) :
    rd a (i : Int) = some (a.getD i d) := by
  unfold rd
  rw [if_neg (by omega), Int.toNat_ofNat, List.getElem?_eq_getElem h,
    List.getD_eq_getElem a d h]

theorem rd_of_nonneg {α : Type} (a : List α) (i : Int) (d : α) (h0 : 0 ≤ i)
    (h : i.toNat < a.length) : rd a i = some (a.getD i.toNat d) := by
  have := rd_natCast a i.toNat d h
  rwa [Int.toNat_of_nonneg h0] at this

/-- The inner loop adds the terms `j0, ..., j0 + cnt - 1` to the accumulator. -/
theorem mat_vec_csr_row_eq {K : Type} [Field K] (cols : List Int) (vals x_global : List K)
    (N : Nat) (hx : x_global.length = N) (hcols : ∀ c ∈ cols, 0 ≤ c ∧ c < (N : Int))
    (cnt j0 : Nat) (acc : K) (hv : j0 + cnt ≤ vals.length) (hc : j0 + cnt ≤ cols.length) :
    mat_vec_csr.row cols vals x_global cnt (j0 : Int) acc =
      some (acc + ∑ j ∈ Finset.Ico j0 (j0 + cnt),
        vals.getD j 0 * x_global.getD (cols.getD j 0).toNat 0) := by
  induction cnt generalizing j0 acc with
  | zero => simp [mat_vec_csr.row]
  | succ cnt ih =>
    have hcj : j0 < cols.length := by omega
    have hmem : cols.getD j0 0 ∈ cols := by
      rw [List.getD_eq_getElem cols 0 hcj]; exact List.getElem_mem hcj
    have hb := hcols _ hmem
    unfold mat_vec_csr.row
    rw [rd_natCast vals j0 0 (by omega), rd_natCast cols j0 0 hcj]
    simp only []
    rw [rd_of_nonneg x_global _ 0 hb.1 (by omega)]
    simp only []
    have h := ih (j0 + 1) (acc + vals.getD j0 0 * x_global.getD (cols.getD j0 0).toNat 0)
      (by omega) (by omega)
    rw [Nat.cast_add, Nat.cast_one] at h
    rw [h, Finset.sum_eq_sum_Ico_succ_bot (by omega : j0 < j0 + (cnt + 1))]
    rw [show j0 + 1 + cnt = j0 + (cnt + 1) by omega, add_assoc]

theorem csr_ok_ptr_nonneg {K : Type} {ptr cols : List Int} {vals : List K} {local_n N : Nat}
    (h : csr_ok ptr cols vals local_n N) (i : Nat) (hi : i ≤ local_n) : 0 ≤ ptr.getD i 0 := by
  induction i with
  | zero => exact le_of_eq h.2.1.symm
  | succ i ih => exact le_trans (ih (by omega)) (h.2.2.1 i (by omega))

theorem csr_ok_ptr_le_last {K : Type} {ptr cols : List Int} {vals : List K} {local_n N : Nat}
    (h : csr_ok ptr cols vals local_n N) (i k : Nat) (hik : i + k = local_n) :
    ptr.getD i 0 ≤ ptr.getD local_n 0 := by
  induction k generalizing i with
  | zero => rw [show i = local_n by omega]
  | succ k ih => exact le_trans (h.2.2.1 i (by omega)) (ih (i + 1) (by omega))

/-- The kernel on a well-formed slice: no access leaves its array and row `i` receives the
row sum of the specification. -/
theorem mat_vec_csr_eq {K : Type} [Field K] (ptr cols : List Int) (vals x_global : List K)
    (local_n N : Nat) (hok : csr_ok ptr cols vals local_n N) (hx : x_global.length = N)
    (m : Nat) (hm : m ≤ local_n) :
    mat_vec_csr ptr cols vals x_global m =
      some ((List.range m).map (row_sum ptr cols vals x_global)) := by
  induction m with
  | zero => simp [mat_vec_csr]
  | succ m ih =>
    have hlo := csr_ok_ptr_nonneg hok m (by omega)
    have hhi := csr_ok_ptr_nonneg hok (m + 1) hm
    have hstep := hok.2.2.1 m (by omega)
    have hlast := csr_ok_ptr_le_last hok (m + 1) (local_n - (m + 1)) (by omega)
    have hc := hok.2.2.2.1
    have hv := hok.2.2.2.2.1
    unfold mat_vec_csr
    rw [ih (by omega), rd_natCast ptr m 0 (by rw [hok.1]; omega)]
    have h1 := rd_natCast ptr (m + 1) 0 (by rw [hok.1]; omega)
    rw [Nat.cast_add, Nat.cast_one] at h1
    rw [h1]
    simp only []
    have hrow := mat_vec_csr_row_eq cols vals x_global N hx hok.2.2.2.2.2
      (ptr.getD (m + 1) 0 - ptr.getD m 0).toNat (ptr.getD m 0).toNat 0 (by omega) (by omega)
    rw [Int.toNat_of_nonneg hlo] at hrow
    rw [hrow]
    simp only []
    rw [List.range_succ, List.map_append, List.map_singleton, zero_add]
    unfold row_sum
    rw [show (ptr.getD m 0).toNat + (ptr.getD (m + 1) 0 - ptr.getD m 0).toNat
      = (ptr.getD (m + 1) 0).toNat by omega]

theorem diag_ptr_length (n : Nat) : (diag_ptr n).length = n + 1 := by
  unfold diag_ptr; rw [List.length_map, List.length_range]

theorem diag_cols_length (n : Nat) : (diag_cols n).length = n := by
  unfold diag_cols; rw [List.length_map, List.length_range]

theorem diag_ptr_getD (n i : Nat) (hi : i ≤ n) : (diag_ptr n).getD i 0 = (i : Int) := by
  rw [List.getD_eq_getElem _ _ (by rw [diag_ptr_length]; omega)]
  unfold diag_ptr
  rw [List.getElem_map, List.getElem_range]

theorem diag_cols_getD (n i : Nat) (hi : i < n) : (diag_cols n).getD i 0 = (i : Int) := by
  rw [List.getD_eq_getElem _ _ (by rw [diag_cols_length]; omega)]
  unfold diag_cols
  rw [List.getElem_map, List.getElem_range]

theorem diag_csr_ok {K : Type} (n : Nat) (c : K) :
    csr_ok (diag_ptr n) (diag_cols n) (List.replicate n c) n n := by
  unfold csr_ok
  refine ⟨diag_ptr_length n, diag_ptr_getD n 0 (by omega), ?_, ?_, ?_, ?_⟩
  · intro i hi
    rw [diag_ptr_getD n i (by omega), diag_ptr_getD n (i + 1) (by omega)]
    omega
  · rw [diag_ptr_getD n n le_rfl, diag_cols_length]
  · rw [diag_ptr_getD n n le_rfl, List.length_replicate]
  · intro c hc
    unfold diag_cols at hc
    rw [List.mem_map] at hc
    obtain ⟨i, hi, rfl⟩ := hc
    rw [List.mem_range] at hi
    omega

theorem diag_row_sum {K : Type} [Field K] (n : Nat) (c : K) (v : List K) (i : Nat)
    (hi : i < n) :
    row_sum (diag_ptr n) (diag_cols n) (List.replicate n c) v i = c * v.getD i 0 := by
  unfold row_sum
  rw [diag_ptr_getD n i (by omega), diag_ptr_getD n (i + 1) (by omega)]
  rw [show ((i + 1 : Nat) : Int).toNat = i + 1 from Int.toNat_ofNat _,
    show ((i : Nat) : Int).toNat = i from Int.toNat_ofNat _]
  rw [Nat.Ico_succ_singleton, Finset.sum_singleton, diag_cols_getD n i hi,
    List.getD_eq_getElem _ _ (by rw [List.length_replicate]; exact hi),
    List.getElem_replicate, Int.toNat_ofNat]

/-- C4. On every well-formed local CSR slice and every length-`N` vector `x_global`,
`mat_vec_csr` returns without an out-of-range access and sets `y_local[i]`, for each local
row `i < local_n`, to the sum over `j` in `[ptr[i], ptr[i + 1])` of
`vals[j] * x_global[cols[j]]`; on the diagonal slice `ptr[i] = i`, `cols[i] = i`,
`vals[i] = c` the result is `c * v` elementwise for every `v`. -/
theorem C4_mat_vec_csr {K : Type} [Field K] :
    (∀ (ptr cols : List Int) (vals x_global : List K) (local_n N : Nat),
      csr_ok ptr cols vals local_n N → x_global.length = N →
      mat_vec_csr ptr cols vals x_global local_n =
        some ((List.range local_n).map (fun i =>
          ∑ j ∈ Finset.Ico (ptr.getD i 0).toNat (ptr.getD (i + 1) 0).toNat,
            vals.getD j 0 * x_global.getD (cols.getD j 0).toNat 0))) ∧
    (∀ (n : Nat) (c : K) (v : List K), v.length = n →
      mat_vec_csr (diag_ptr n) (diag_cols n) (List.replicate n c) v n =
        some (v.map (fun a => c * a))) := by
  constructor
  · intro ptr cols vals x_global local_n N hok hx
    exact mat_vec_csr_eq ptr cols vals x_global local_n N hok hx local_n le_rfl
  · intro n c v hv
    rw [mat_vec_csr_eq _ _ _ v n n (diag_csr_ok n c) hv n le_rfl]
    congr 1
    apply List.ext_getElem
    · simp [hv]
    · intro i h1 h2
      simp only [List.length_map, List.length_range] at h1
      simp only [List.getElem_map, List.getElem_range]
      rw [diag_row_sum n c v i h1, List.getD_eq_getElem v 0 (by omega)]

/-- C4 at a concrete slice: the rows `[2 3 0; 0 0 5]` applied to `[1, 10, 100]`, and the
diagonal slice with `c = 7` applied to `[1, 2, 3]`. -/
theorem C4_mat_vec_csr_witness :
    (csr_ok [0, 2, 3] [0, 1, 2] [(2 : ℚ), 3, 5] 2 3 ∧ [(1 : ℚ), 10, 100].length = 3 ∧
      mat_vec_csr [0, 2, 3] [0, 1, 2] [(2 : ℚ), 3, 5] [1, 10, 100] 2 =
        some ((List.range 2).map (fun i =>
          ∑ j ∈ Finset.Ico (([0, 2, 3] : List Int).getD i 0).toNat
              (([0, 2, 3] : List Int).getD (i + 1) 0).toNat,
            [(2 : ℚ), 3, 5].getD j 0 *
              [(1 : ℚ), 10, 100].getD (([0, 1, 2] : List Int).getD j 0).toNat 0))) ∧
    ([(1 : ℚ), 2, 3].length = 3 ∧
      mat_vec_csr (diag_ptr 3) (diag_cols 3) (List.replicate 3 (7 : ℚ)) [1, 2, 3] 3 =
        some ([(1 : ℚ), 2, 3].map (fun a => 7 * a))) :=
  ⟨⟨by decide, rfl, C4_mat_vec_csr.1 _ _ _ _ 2 3 (by decide) rfl⟩,
    ⟨rfl, C4_mat_vec_csr.2 3 7 [1, 2, 3] rfl⟩⟩

/-! ## C5: the distributed dot product -/

theorem dot_eq_sum {K : Type} [Field K] (u v : List K) (n : Nat) :
    dot u v n = ∑ i ∈ Finset.range n, u.getD i 0 * v.getD i 0 := by
  induction n with
  | zero => simp [dot]
  | succ n ih => rw [dot, ih, Finset.sum_range_succ]

theorem getD_slice {α : Type} (l : List α) (a m i : Nat) (d : α) (hi : i < m) :
    ((l.drop a).take m).getD i d = l.getD (a + i) d := by
  rw [List.getD_eq_getElem?_getD, List.getD_eq_getElem?_getD, List.getElem?_take_of_lt hi,
    List.getElem?_drop]

theorem dot_slice {K : Type} [Field K] (u v : List K) (a m : Nat) :
    dot ((u.drop a).take m) ((v.drop a).take m) m =
      ∑ i ∈ Finset.Ico a (a + m), u.getD i 0 * v.getD i 0 := by
  rw [dot_eq_sum, Finset.sum_Ico_eq_sum_range, Nat.add_sub_cancel_left]
  apply Finset.sum_congr rfl
  intro i hi
  rw [Finset.mem_range] at hi
  rw [getD_slice u a m i 0 hi, getD_slice v a m i 0 hi]

/-- The blocks of an exact partition in natural numbers: rank `r` owns
`[(cut r).toNat, (cut r).toNat + recvcounts r)` and the next block starts where it ends. -/
theorem exact_block {n p : Int} (hn : 1 ≤ n) (hp : 1 ≤ p) (hf : fits_int n p)
    (hc : exact_cover n p) (r : Nat) (hr : (r : Int) < p) :
    (cg_solver.displs n p r).toNat = (cut n p r).toNat ∧
    (cut n p r).toNat + (cg_solver.recvcounts n p r).toNat = (cut n p (r + 1)).toNat ∧
    0 ≤ cg_solver.displs n p r ∧ 0 ≤ cg_solver.recvcounts n p r ∧
    ((cut n p (r + 1)).toNat : Int) ≤ n := by
  have h1 := displs_eq_cut hn hp hf hc (Int.ofNat_nonneg r) hr
  have h2 := recvcounts_eq_cut hn hp hf hc (Int.ofNat_nonneg r) hr
  have h3 := cut_mono hn hp hf (r : Int)
  have h4 := cut_nonneg (p := p) hn hp hf (Int.ofNat_nonneg r)
  have h5 := cut_le n p (r + 1)
  rw [h1, h2]
  refine ⟨rfl, by omega, h4, by omega, by omega⟩

theorem table_slice_eq {α : Type} (full : List α) {n p : Int} (hn : 1 ≤ n) (hp : 1 ≤ p)
    (hf : fits_int n p) (hc : exact_cover n p) (r : Nat) (hr : (r : Int) < p) :
    table_slice full n p r =
      (full.drop (cut n p r).toNat).take (cg_solver.recvcounts n p r).toNat := by
  unfold table_slice row_range_slice
  rw [(exact_block hn hp hf hc r hr).1]

/-- The contributions of the ranks `0 .. k - 1` add up to the dot product of the first
`cut k` entries. -/
theorem dot_blocks_upto {K : Type} [Field K] (u v : List K) {n p : Int} (hn : 1 ≤ n)
    (hp : 1 ≤ p) (hf : fits_int n p) (hc : exact_cover n p) (k : Nat) (hk : (k : Int) ≤ p) :
    ((List.range k).map (fun r => dot (table_slice u n p r) (table_slice v n p r)
        (cg_solver.recvcounts n p r).toNat)).sum =
      ∑ i ∈ Finset.range (cut n p k).toNat, u.getD i 0 * v.getD i 0 := by
  induction k with
  | zero =>
    have h : (cut n p ((0 : Nat) : Int)).toNat = 0 := by
      rw [Nat.cast_zero, cut_zero hn]; rfl
    rw [h]; simp
  | succ k ih =>
    have hr : (k : Int) < p := by omega
    obtain ⟨_, h2, _, _, _⟩ := exact_block hn hp hf hc k hr
    rw [List.sum_range_succ, ih (by omega), table_slice_eq u hn hp hf hc k hr,
      table_slice_eq v hn hp hf hc k hr, dot_slice, h2, Nat.cast_add, Nat.cast_one]
    rw [Finset.sum_range_add_sum_Ico]
    omega

/-- C5. For all length-`N` vectors `u`, `v` and every process count `P` whose block
partition is exact, with `N + P - 1 < 2^31` so that the `int` arithmetic of the table does
not overflow, the sum over the ranks of `dot(u_slice, v_slice, count)`, the value
`dot_allreduce` hands to every rank, is the sequential `dot(u, v, N)`. -/
theorem C5_dot_independent_of_P {K : Type} [Field K] (u v : List K) (N P : Nat)
    (hN : 1 ≤ N) (hP : 1 ≤ P) (hf : fits_int N P) (hc : exact_cover N P)
    (_hu : u.length = N) (_hv : v.length = N) :
    dot_allreduce ((List.range P).map (fun r =>
        dot (table_slice u N P r) (table_slice v N P r) (cg_solver.recvcounts N P r).toNat))
      = dot u v N := by
  have hn : (1 : Int) ≤ N := by exact_mod_cast hN
  have hp : (1 : Int) ≤ P := by exact_mod_cast hP
  unfold dot_allreduce
  rw [dot_blocks_upto u v hn hp hf hc P le_rfl, cut_last hn hp hf, Int.toNat_ofNat,
    dot_eq_sum]

/-- C5 on `u = v = [1..8]` split over `P = 1, 2, 4, 8` ranks: every split gives the
sequential value, which is 204. -/
theorem C5_dot_independent_of_P_witness :
    (exact_cover 8 1 ∧ exact_cover 8 2 ∧ exact_cover 8 4 ∧ exact_cover 8 8 ∧
      fits_int 8 1 ∧ fits_int 8 2 ∧ fits_int 8 4 ∧ fits_int 8 8 ∧
      [(1 : ℚ), 2, 3, 4, 5, 6, 7, 8].length = 8) ∧
    (∀ P ∈ [1, 2, 4, 8],
      dot_allreduce ((List.range P).map (fun r =>
        dot (table_slice [(1 : ℚ), 2, 3, 4, 5, 6, 7, 8] (8 : Nat) P r)
          (table_slice [(1 : ℚ), 2, 3, 4, 5, 6, 7, 8] (8 : Nat) P r)
          (cg_solver.recvcounts (8 : Nat) P r).toNat))
        = dot [(1 : ℚ), 2, 3, 4, 5, 6, 7, 8] [(1 : ℚ), 2, 3, 4, 5, 6, 7, 8] 8) ∧
    dot [(1 : ℚ), 2, 3, 4, 5, 6, 7, 8] [(1 : ℚ), 2, 3, 4, 5, 6, 7, 8] 8 = 204 := by
  refine ⟨by decide, ?_, by decide!⟩
  intro P hP
  have h : (1 ≤ P) ∧ fits_int ((8 : Nat) : Int) (P : Int) ∧
      exact_cover ((8 : Nat) : Int) (P : Int) := by
    simp only [List.mem_cons, List.mem_singleton, List.not_mem_nil, or_false] at hP
    rcases hP with rfl | rfl | rfl | rfl <;> decide
  exact C5_dot_independent_of_P _ _ 8 P (by decide) h.1 h.2.1 h.2.2 rfl rfl

/-! ## C6: gather is a left inverse of partitioning -/

theorem blit_length {K : Type} (buf src : List K) (off : Nat)
    (h : off + src.length ≤ buf.length) : (blit buf off src).length = buf.length := by
  unfold blit
  rw [List.length_append, List.length_append, List.length_take, List.length_drop]
  omega

theorem blit_take {K : Type} (buf src : List K) (off : Nat) (h : off ≤ buf.length) :
    (blit buf off src).take (off + src.length) = buf.take off ++ src := by
  unfold blit
  have hl : (buf.take off ++ src).length = off + src.length := by
    rw [List.length_append, List.length_take]; omega
  rw [← hl, List.take_left]

/-- Receiving the blocks of the ranks `i, ..., i + k - 1 = P - 1` into a buffer that already
agrees with `v` below `cut i` yields `v`. -/
theorem allgatherv_from {K : Type} (v : List K) {n p : Int} (N : Nat) (hnN : n = N)
    (hn : 1 ≤ n) (hp : 1 ≤ p) (hf : fits_int n p) (hc : exact_cover n p)
    (hv : v.length = N) (k i : Nat)
    (hik : ((i + k : Nat) : Int) = p) (buf : List K) (hbuf : buf.length = N)
    (hpre : buf.take (cut n p i).toNat = v.take (cut n p i).toNat) :
    MPI_Allgatherv (fun j => cg_solver.recvcounts n p j) (fun j => cg_solver.displs n p j)
      ((List.range' i k).map (fun r => (table_slice v n p r, cg_solver.recvcounts n p r)))
      i buf = some v := by
  induction k generalizing i buf with
  | zero =>
    have hi : (i : Int) = p := by simpa using hik
    rw [hi, cut_last hn hp hf, hnN, Int.toNat_ofNat] at hpre
    rw [List.take_of_length_le (by omega), List.take_of_length_le (by omega)] at hpre
    simp [MPI_Allgatherv, hpre]
  | succ k ih =>
    have hr : (i : Int) < p := by push_cast at hik; omega
    obtain ⟨h1, h2, h3, h4, h5⟩ := exact_block hn hp hf hc i hr
    have hlen : (table_slice v n p i).length = (cg_solver.recvcounts n p i).toNat := by
      rw [table_slice_eq v hn hp hf hc i hr, List.length_take, List.length_drop]
      omega
    rw [List.range'_succ, List.map_cons, MPI_Allgatherv]
    have hcond : cg_solver.recvcounts n p i = cg_solver.recvcounts n p i ∧
        0 ≤ cg_solver.recvcounts n p i ∧
        (cg_solver.recvcounts n p i).toNat ≤ (table_slice v n p i).length ∧
        0 ≤ cg_solver.displs n p i ∧
        (cg_solver.displs n p i + cg_solver.recvcounts n p i).toNat ≤ buf.length := by
      refine ⟨rfl, h4, by omega, h3, by omega⟩
    rw [if_pos hcond]
    have htake : (table_slice v n p i).take (cg_solver.recvcounts n p i).toNat
        = table_slice v n p i := List.take_of_length_le (by omega)
    rw [htake, h1]
    apply ih (i + 1) (by push_cast at hik ⊢; omega)
    · rw [blit_length _ _ _ (by omega), hbuf]
    · have e : v.take ((cut n p i).toNat + (cg_solver.recvcounts n p i).toNat)
          = buf.take (cut n p i).toNat ++ table_slice v n p i := by
        rw [List.take_add, ← hpre, table_slice_eq v hn hp hf hc i hr]
      rw [Nat.cast_add, Nat.cast_one, ← h2, e, ← hlen]
      exact blit_take _ _ _ (by omega)

/-- Every row `j < n` lies in the block of exactly one rank. -/
theorem unique_owner {n p : Int} (hn : 1 ≤ n) (hp : 1 ≤ p) (hf : fits_int n p) (j : Nat)
    (hj : (j : Int) < n) :
    ∃! r : Nat, (r : Int) < p ∧ cg_solver.displs n p r ≤ j ∧
      (j : Int) < cg_solver.displs n p r + cg_solver.recvcounts n p r := by
  have hb := rows_per_proc_pos hn hp hf
  have hbd := rows_per_proc_bounds hn hp hf
  have key : ∀ r : Nat, (r : Int) < p →
      ((cg_solver.displs n p r ≤ j ∧
        (j : Int) < cg_solver.displs n p r + cg_solver.recvcounts n p r) ↔
       ((r : Int) * rows_per_proc n p ≤ j ∧ (j : Int) < ((r : Int) + 1) * rows_per_proc n p)) := by
    intro r hr
    have e1 : cg_solver.displs n p r + cg_solver.recvcounts n p r = cut n p (r + 1) := by
      rw [recvcounts_exact hn hp hf (Int.ofNat_nonneg r) hr,
        displs_exact hn hp hf (Int.ofNat_nonneg r) hr]
      omega
    rw [e1, displs_exact hn hp hf (Int.ofNat_nonneg r) hr]
    unfold cut
    constructor
    · rintro ⟨a, b⟩
      exact ⟨a, lt_of_lt_of_le b (min_le_right _ _)⟩
    · rintro ⟨a, b⟩
      exact ⟨a, lt_min hj b⟩
  have hq0 : 0 ≤ (j : Int) / rows_per_proc n p := Int.ediv_nonneg (by omega) (by omega)
  have hq1 := Int.ediv_mul_le (j : Int) (by omega : rows_per_proc n p ≠ 0)
  have hq2 := Int.lt_ediv_add_one_mul_self (j : Int) (by omega : 0 < rows_per_proc n p)
  have hqp : (j : Int) / rows_per_proc n p < p := by
    by_contra hcon
    have : p * rows_per_proc n p ≤ (j : Int) / rows_per_proc n p * rows_per_proc n p :=
      Int.mul_le_mul_of_nonneg_right (by omega) (by omega)
    omega
  refine ⟨((j : Int) / rows_per_proc n p).toNat, ?_, ?_⟩
  · have hcast : ((((j : Int) / rows_per_proc n p).toNat : Nat) : Int)
        = (j : Int) / rows_per_proc n p := Int.toNat_of_nonneg hq0
    have hlt : ((((j : Int) / rows_per_proc n p).toNat : Nat) : Int) < p := by
      rw [hcast]; exact hqp
    refine ⟨hlt, ?_⟩
    rw [key _ hlt, hcast]
    exact ⟨hq1, hq2⟩
  · rintro r ⟨hr, hrj⟩
    rw [key r hr] at hrj
    have a1 : (r : Int) < (j : Int) / rows_per_proc n p + 1 :=
      lt_of_mul_lt_mul_right (lt_of_le_of_lt hrj.1 hq2) (by omega)
    have a2 : (j : Int) / rows_per_proc n p < (r : Int) + 1 :=
      lt_of_mul_lt_mul_right (lt_of_le_of_lt hq1 hrj.2) (by omega)
    omega

/-- C6. For every `N >= 1`, `P >= 1` with `(P - 1) * ceil(N / P) <= N`, with
`N + P - 1 < 2^31` so that the `int` arithmetic of the table does not overflow, and every
length-`N` vector `v`: the `MPI_Allgatherv` call of `cg_solver` with the table it builds, receiving
from rank `r` the slice `v[displs[r] .. displs[r] + recvcounts[r])`, turns any length-`N`
receive buffer into `v` (so the result is the same on every rank), and every index below
`N` lies in the block of exactly one rank (every entry is written exactly once). -/
theorem C6_gather_left_inverse {K : Type} (v buf : List K) (N P : Nat) (hN : 1 ≤ N)
    (hP : 1 ≤ P) (hf : (N : Int) + P - 1 < 2147483648)
    (hc : ((P : Int) - 1) * rows_per_proc N P ≤ N) (hv : v.length = N)
    (hbuf : buf.length = N) :
    MPI_Allgatherv (fun i => cg_solver.recvcounts N P i) (fun i => cg_solver.displs N P i)
        ((List.range P).map (fun r => (table_slice v N P r, cg_solver.recvcounts N P r)))
        0 buf = some v ∧
    ∀ j < N, ∃! r : Nat, r < P ∧ cg_solver.displs N P r ≤ j ∧
      (j : Int) < cg_solver.displs N P r + cg_solver.recvcounts N P r := by
  have hn : (1 : Int) ≤ N := by exact_mod_cast hN
  have hp : (1 : Int) ≤ P := by exact_mod_cast hP
  constructor
  · rw [List.range_eq_range']
    apply allgatherv_from v N rfl hn hp hf hc hv P 0 (by simp) buf hbuf
    rw [Nat.cast_zero, cut_zero hn]
    rfl
  · intro j hj
    obtain ⟨r, hr, huniq⟩ := unique_owner hn hp hf j (by exact_mod_cast hj)
    refine ⟨r, ⟨by exact_mod_cast hr.1, hr.2⟩, ?_⟩
    rintro r2 ⟨h1, h2⟩
    exact huniq r2 ⟨by exact_mod_cast h1, h2⟩

/-- C6 for `N = 5`, `P = 2` (blocks of 3 and 2 rows): gathering the two slices of
`[1, 2, 3, 4, 5]` into a zeroed buffer. -/
theorem C6_gather_left_inverse_witness :
    (1 ≤ 5 ∧ 1 ≤ 2 ∧ ((5 : Nat) : Int) + (2 : Nat) - 1 < 2147483648 ∧
      (((2 : Nat) : Int) - 1) * rows_per_proc (5 : Nat) (2 : Nat) ≤ (5 : Nat) ∧
      [(1 : ℚ), 2, 3, 4, 5].length = 5 ∧ [(0 : ℚ), 0, 0, 0, 0].length = 5) ∧
    (MPI_Allgatherv (fun i => cg_solver.recvcounts (5 : Nat) (2 : Nat) i)
        (fun i => cg_solver.displs (5 : Nat) (2 : Nat) i)
        ((List.range 2).map (fun r =>
          (table_slice [(1 : ℚ), 2, 3, 4, 5] (5 : Nat) (2 : Nat) r,
            cg_solver.recvcounts (5 : Nat) (2 : Nat) r)))
        0 [(0 : ℚ), 0, 0, 0, 0] = some [(1 : ℚ), 2, 3, 4, 5] ∧
      ∀ j : Nat, j < 5 → ∃! r : Nat, r < 2 ∧ cg_solver.displs (5 : Nat) (2 : Nat) r ≤ j ∧
        (j : Int) < cg_solver.displs (5 : Nat) (2 : Nat) r
          + cg_solver.recvcounts (5 : Nat) (2 : Nat) r) :=
  ⟨⟨by decide, by decide, by decide, by decide, rfl, rfl⟩,
    C6_gather_left_inverse [(1 : ℚ), 2, 3, 4, 5] [(0 : ℚ), 0, 0, 0, 0] 5 2 (by decide)
      (by decide) (by decide) (by decide) rfl rfl⟩

/-! ## The solver: faults and control flow -/

theorem mapM_error_mem {α β : Type} (f : α → Except Fault β) (l : List α) (e : Fault)
    (h : l.mapM f = Except.error e) : ∃ x ∈ l, f x = Except.error e := by
  induction l with
  | nil =>
    rw [List.mapM_nil] at h
    cases h
  | cons a l ih =>
    rw [List.mapM_cons] at h
    cases hfa : f a with
    | error e1 =>
      rw [hfa] at h
      simp only [bind, Except.bind] at h
      simp only [Except.error.injEq] at h
      exact ⟨a, List.mem_cons_self _ _, by rw [hfa, h]⟩
    | ok b =>
      rw [hfa] at h
      cases hl : l.mapM f with
      | error e2 =>
        rw [hl] at h
        simp only [bind, Except.bind] at h
        obtain ⟨x, hx, hfx⟩ := ih (by rw [hl]; exact h)
        exact ⟨x, List.mem_cons_of_mem _ hx, hfx⟩
      | ok bs =>
        rw [hl] at h
        simp [bind, Except.bind, pure, Except.pure] at h

theorem mapM_ok_map {α β : Type} (f : α → Except Fault β) (g : α → β) (l : List α)
    (h : ∀ x ∈ l, f x = Except.ok (g x)) : l.mapM f = Except.ok (l.map g) := by
  induction l with
  | nil => rfl
  | cons a l ih =>
    rw [List.mapM_cons, h a (List.mem_cons_self _ _),
      ih (fun x hx => h x (List.mem_cons_of_mem _ hx))]
    rfl

/-- A successful `mapM` keeps every quantity that each single step keeps. -/
theorem mapM_ok_preserves {α β γ : Type} (f : α → Except Fault β) (g : α → γ) (g2 : β → γ)
    (l : List α) (l2 : List β) (h : l.mapM f = Except.ok l2)
    (hf : ∀ x y, f x = Except.ok y → g2 y = g x) : l2.map g2 = l.map g := by
  induction l generalizing l2 with
  | nil =>
    simp only [List.mapM_nil, pure, Except.pure, Except.ok.injEq] at h
    rw [← h]; rfl
  | cons a l ih =>
    rw [List.mapM_cons] at h
    cases hfa : f a with
    | error e1 => rw [hfa] at h; simp [bind, Except.bind] at h
    | ok b =>
      rw [hfa] at h
      cases hl : l.mapM f with
      | error e2 => rw [hl] at h; simp [bind, Except.bind] at h
      | ok bs =>
        rw [hl] at h
        simp only [bind, Except.bind, pure, Except.pure, Except.ok.injEq] at h
        rw [← h, List.map_cons, List.map_cons, hf a b hfa, ih bs hl]

theorem matvec_error {K : Type} [Field K] (ranks : List (Rank K)) (e : Fault)
    (h : cg_solver.matvec ranks = Except.error e) : e = Fault.out_of_range := by
  obtain ⟨rk, _, hrk⟩ := mapM_error_mem _ _ _ h
  cases hm : mat_vec_csr rk.A.ptr rk.A.cols rk.A.vals rk.x_global rk.A.local_n with
  | none => rw [hm] at hrk; simp only [Except.error.injEq] at hrk; exact hrk.symm
  | some q => rw [hm] at hrk; simp at hrk

theorem gather_error {K : Type} (n : Int) (ranks : List (Rank K)) (e : Fault)
    (h : cg_solver.gather n ranks = Except.error e) : e = Fault.mpi_count := by
  obtain ⟨rk, _, hrk⟩ := mapM_error_mem _ _ _ h
  revert hrk
  cases MPI_Allgatherv (fun i => cg_solver.recvcounts n ranks.length i)
      (fun i => cg_solver.displs n ranks.length i)
      (ranks.map (fun s => (s.d, (s.A.local_n : Int)))) 0 rk.x_global with
  | none => intro hrk; simp only [Except.error.injEq] at hrk; exact hrk.symm
  | some q => intro hrk; simp at hrk

theorem dot_self_nonneg {K : Type} [LinearOrderedField K] (u : List K) (n : Nat) :
    0 ≤ dot u u n := by
  induction n with
  | zero => exact le_rfl
  | succ n ih => rw [dot]; exact add_nonneg ih (mul_self_nonneg _)

theorem sum_dot_self_nonneg {K : Type} [LinearOrderedField K] (ranks : List (Rank K)) :
    0 ≤ dot_allreduce (ranks.map (fun rk => dot rk.r rk.r rk.A.local_n)) := by
  unfold dot_allreduce
  apply List.sum_nonneg
  intro x hx
  rw [List.mem_map] at hx
  obtain ⟨rk, _, rfl⟩ := hx
  exact dot_self_nonneg _ _

theorem fdiv_ok {K : Type} [Field K] [DecidableEq K] (a b : K) (hb : b ≠ 0) :
    fdiv a b = Except.ok (a / b) := by
  unfold fdiv; rw [if_neg hb]

theorem init_error {K : Type} [Field K] (args : List (Args K)) (N : Nat) (e : Fault)
    (h : cg_solver.init args N = Except.error e) : e = Fault.out_of_range := by
  unfold cg_solver.init at h
  cases hm : cg_solver.matvec (args.map (cg_solver.alloc N)) with
  | error e1 =>
    rw [hm] at h
    simp only [Except.error.injEq] at h
    rw [← h]; exact matvec_error _ _ hm
  | ok ranks1 => rw [hm] at h; simp at h

theorem init_ok {K : Type} [LinearOrderedField K] (args : List (Args K)) (N : Nat)
    (s : Run K) (h : cg_solver.init args N = Except.ok s) :
    0 ≤ s.delta0 ∧ s.delta = s.delta0 ∧ s.iter = 0 ∧ s.breakdown = false := by
  unfold cg_solver.init at h
  cases hm : cg_solver.matvec (args.map (cg_solver.alloc N)) with
  | error e1 => rw [hm] at h; simp at h
  | ok ranks1 =>
    rw [hm] at h
    simp only [Except.ok.injEq] at h
    rw [← h]
    exact ⟨sum_dot_self_nonneg _, rfl, rfl, rfl⟩

theorem alpha_den_error {K : Type} [Field K] (n : Int) (s : Run K) (e : Fault)
    (h : cg_solver.alpha_den n s = Except.error e) : e ≠ Fault.div_by_zero := by
  unfold cg_solver.alpha_den at h
  cases hg : cg_solver.gather n s.ranks with
  | error e1 =>
    rw [hg] at h
    simp only [Except.error.injEq] at h
    rw [← h, gather_error _ _ _ hg]; decide
  | ok ranks1 =>
    rw [hg] at h
    simp only [] at h
    cases hm : cg_solver.matvec ranks1 with
    | error e2 =>
      rw [hm] at h
      simp only [Except.error.injEq] at h
      rw [← h, matvec_error _ _ hm]; decide
    | ok ranks2 => rw [hm] at h; simp at h

/-- The `break` branch of the loop body. -/
theorem body_breakdown {K : Type} [Field K] [DecidableEq K] (n : Int) (s : Run K)
    (ranks2 : List (Rank K)) (h : cg_solver.alpha_den n s = Except.ok (ranks2, 0)) :
    cg_solver.body n s = Except.ok { s with ranks := ranks2, breakdown := true } := by
  unfold cg_solver.body
  rw [h]
  simp

/-- The updating branch of the loop body. -/
theorem body_step {K : Type} [Field K] [DecidableEq K] (n : Int) (s : Run K)
    (ranks2 : List (Rank K)) (ad : K) (h : cg_solver.alpha_den n s = Except.ok (ranks2, ad))
    (had : ad ≠ 0) (hd : s.delta ≠ 0) :
    cg_solver.body n s = Except.ok
      { s with
        ranks := (ranks2.map (cg_solver.update_x_r (s.delta / ad))).map
          (cg_solver.update_d (dot_allreduce ((ranks2.map
            (cg_solver.update_x_r (s.delta / ad))).map
              (fun rk => dot rk.r rk.r rk.A.local_n)) / s.delta)),
        delta := dot_allreduce ((ranks2.map (cg_solver.update_x_r (s.delta / ad))).map
          (fun rk => dot rk.r rk.r rk.A.local_n)),
        iter := s.iter + 1 } := by
  unfold cg_solver.body
  rw [h]
  simp only [if_neg had, fdiv_ok _ _ had, fdiv_ok _ _ hd]

theorem body_error {K : Type} [Field K] [DecidableEq K] (n : Int) (s : Run K) (e : Fault)
    (hd : s.delta ≠ 0) (h : cg_solver.body n s = Except.error e) : e ≠ Fault.div_by_zero := by
  cases ha : cg_solver.alpha_den n s with
  | error e1 =>
    unfold cg_solver.body at h
    rw [ha] at h
    simp only [Except.error.injEq] at h
    rw [← h]; exact alpha_den_error n s e1 ha
  | ok pr =>
    obtain ⟨ranks2, ad⟩ := pr
    by_cases had : ad = 0
    · rw [had] at ha
      rw [body_breakdown n s ranks2 ha] at h
      simp at h
    · rw [body_step n s ranks2 ad ha had hd] at h
      simp at h

/-- What a successful pass of the loop body leaves: either the `break` state or the
updated state. -/
theorem body_ok {K : Type} [Field K] [DecidableEq K] (n : Int) (s s1 : Run K)
    (hd : s.delta ≠ 0) (h : cg_solver.body n s = Except.ok s1) :
    s1.delta0 = s.delta0 ∧
    ((s1.breakdown = true ∧ s1.iter = s.iter ∧ s1.delta = s.delta) ∨
     (s1.breakdown = s.breakdown ∧ s1.iter = s.iter + 1)) := by
  cases ha : cg_solver.alpha_den n s with
  | error e1 =>
    unfold cg_solver.body at h
    rw [ha] at h
    simp at h
  | ok pr =>
    obtain ⟨ranks2, ad⟩ := pr
    by_cases had : ad = 0
    · rw [had] at ha
      rw [body_breakdown n s ranks2 ha] at h
      simp only [Except.ok.injEq] at h
      rw [← h]
      exact ⟨rfl, Or.inl ⟨rfl, rfl, rfl⟩⟩
    · rw [body_step n s ranks2 ad ha had hd] at h
      simp only [Except.ok.injEq] at h
      rw [← h]
      exact ⟨rfl, Or.inr ⟨rfl, rfl⟩⟩

theorem test_delta_pos {K : Type} [LinearOrderedField K] (tol : K) (s : Run K)
    (h0 : 0 ≤ s.delta0) (ht : s.delta > tol * tol * s.delta0) : 0 < s.delta :=
  lt_of_le_of_lt (mul_nonneg (mul_self_nonneg tol) h0) ht

theorem loop_no_div_by_zero {K : Type} [LinearOrderedField K] (n : Int) (tol : K)
    (fuel : Nat) (s : Run K) (h0 : 0 ≤ s.delta0) :
    cg_solver.loop n tol fuel s ≠ Except.error Fault.div_by_zero := by
  induction fuel generalizing s with
  | zero => simp [cg_solver.loop]
  | succ fuel ih =>
    unfold cg_solver.loop
    by_cases ht : s.delta > tol * tol * s.delta0
    · rw [if_pos ht]
      have hd : s.delta ≠ 0 := ne_of_gt (test_delta_pos tol s h0 ht)
      cases hb : cg_solver.body n s with
      | error e =>
        simp only []
        intro hc
        simp only [Except.error.injEq] at hc
        exact body_error n s e hd hb hc
      | ok s1 =>
        simp only []
        by_cases hbr : s1.breakdown = true
        · rw [if_pos hbr]; simp
        · rw [if_neg hbr]
          exact ih s1 (by rw [(body_ok n s s1 hd hb).1]; exact h0)
    · rw [if_neg ht]; simp

/-- The states at the loop test: `iter = k`, no `break` so far, `delta0 >= 0`. -/
theorem at_test_facts {K : Type} [LinearOrderedField K] (args : List (Args K)) (N : Nat)
    (tol : K) (k : Nat) (s : Run K) (h : cg_solver.at_test args N tol k = some s) :
    0 ≤ s.delta0 ∧ s.iter = k ∧ s.breakdown = false := by
  induction k generalizing s with
  | zero =>
    unfold cg_solver.at_test at h
    cases hi : cg_solver.init args N with
    | error e => rw [hi] at h; simp at h
    | ok s0 =>
      rw [hi] at h
      simp only [Option.some.injEq] at h
      rw [← h]
      obtain ⟨a, _, c, d⟩ := init_ok args N s0 hi
      exact ⟨a, c, d⟩
  | succ k ih =>
    unfold cg_solver.at_test at h
    cases hk : cg_solver.at_test args N tol k with
    | none => rw [hk] at h; simp at h
    | some s0 =>
      rw [hk] at h
      simp only [] at h
      obtain ⟨a, b, c⟩ := ih s0 hk
      by_cases ht : s0.delta > tol * tol * s0.delta0
      · rw [if_pos ht] at h
        have hd : s0.delta ≠ 0 := ne_of_gt (test_delta_pos tol s0 a ht)
        cases hb : cg_solver.body (N : Int) s0 with
        | error e => rw [hb] at h; simp at h
        | ok s1 =>
          rw [hb] at h
          simp only [] at h
          by_cases hbr : s1.breakdown = true
          · rw [if_pos hbr] at h; simp at h
          · rw [if_neg hbr] at h
            simp only [Option.some.injEq] at h
            rw [← h]
            obtain ⟨e1, e2⟩ := body_ok (N : Int) s0 s1 hd hb
            rcases e2 with ⟨e3, _, _⟩ | ⟨e3, e4⟩
            · exact absurd e3 hbr
            · exact ⟨by rw [e1]; exact a, by rw [e4, b], by rw [e3]; exact c⟩
      · rw [if_neg ht] at h; simp at h

/-- From the `(k + 1)`-th evaluation of the loop test on, the run is the loop with
`max_iter - k` passes left. -/
theorem cg_solver_from_test {K : Type} [LinearOrderedField K] (args : List (Args K))
    (N : Nat) (max_iter : Int) (tol : K) (k : Nat) (s : Run K)
    (h : cg_solver.at_test args N tol k = some s) (hk : k ≤ max_iter.toNat) :
    cg_solver args N max_iter tol = cg_solver.loop N tol (max_iter.toNat - k) s := by
  induction k generalizing s with
  | zero =>
    unfold cg_solver.at_test at h
    unfold cg_solver
    cases hi : cg_solver.init args N with
    | error e => rw [hi] at h; simp at h
    | ok s0 =>
      rw [hi] at h
      simp only [Option.some.injEq] at h
      rw [← h]; rfl
  | succ k ih =>
    unfold cg_solver.at_test at h
    cases hk0 : cg_solver.at_test args N tol k with
    | none => rw [hk0] at h; simp at h
    | some s0 =>
      rw [hk0] at h
      simp only [] at h
      by_cases ht : s0.delta > tol * tol * s0.delta0
      · rw [if_pos ht] at h
        cases hb : cg_solver.body (N : Int) s0 with
        | error e => rw [hb] at h; simp at h
        | ok s1 =>
          rw [hb] at h
          simp only [] at h
          by_cases hbr : s1.breakdown = true
          · rw [if_pos hbr] at h; simp at h
          · rw [if_neg hbr] at h
            simp only [Option.some.injEq] at h
            rw [ih s0 hk0 (by omega),
              show max_iter.toNat - k = (max_iter.toNat - (k + 1)) + 1 by omega]
            conv_lhs => unfold cg_solver.loop
            rw [if_pos ht, hb]
            simp only []
            rw [if_neg hbr, h]
      · rw [if_neg ht] at h; simp at h

theorem loop_test_fails {K : Type} [LinearOrderedField K] (n : Int) (tol : K) (fuel : Nat)
    (s : Run K) (ht : ¬ s.delta > tol * tol * s.delta0) :
    cg_solver.loop n tol fuel s = Except.ok s := by
  cases fuel with
  | zero => rfl
  | succ fuel => unfold cg_solver.loop; rw [if_neg ht]

/-! ## C10: no division by zero -/

/-- C10. No division of the CG loop divides by zero, on any input: the run never ends in
a division fault, and whenever the loop test has succeeded (so that the pass computes
`alpha = alpha_num / alpha_den` and `beta = delta_new / delta`) `delta` is strictly
positive and the pass itself raises no division fault (`alpha_den` is nonzero where
`alpha` is computed, by the `break` before it). -/
theorem C10_no_division_by_zero {K : Type} [LinearOrderedField K] (args : List (Args K))
    (global_n : Nat) (max_iter : Int) (tol : K) :
    cg_solver args global_n max_iter tol ≠ Except.error Fault.div_by_zero ∧
    ∀ (k : Nat) (s : Run K), cg_solver.at_test args global_n tol k = some s →
      s.delta > tol * tol * s.delta0 →
        0 < s.delta ∧ cg_solver.body global_n s ≠ Except.error Fault.div_by_zero := by
  constructor
  · unfold cg_solver
    cases hi : cg_solver.init args global_n with
    | error e =>
      simp only []
      rw [init_error args global_n e hi]
      intro hc
      simp only [Except.error.injEq] at hc
      exact absurd hc (by decide)
    | ok s =>
      simp only []
      exact loop_no_div_by_zero _ tol _ s (init_ok args global_n s hi).1
  · intro k s hs ht
    have hpos := test_delta_pos tol s (at_test_facts args global_n tol k s hs).1 ht
    refine ⟨hpos, ?_⟩
    intro hc
    exact body_error _ s _ (ne_of_gt hpos) hc rfl

/-- C10 on the run of `singular2_args` with `tol = 1/100`, at the second loop test. -/
theorem C10_no_division_by_zero_witness :
    cg_solver singular2_args 2 10 (1 / 100) ≠ Except.error Fault.div_by_zero ∧
    cg_solver.at_test singular2_args 2 (1 / 100) 1 = some singular2_at_test1 ∧
    singular2_at_test1.delta > 1 / 100 * (1 / 100) * singular2_at_test1.delta0 ∧
    0 < singular2_at_test1.delta ∧
    cg_solver.body ((2 : Nat) : Int) singular2_at_test1 ≠ Except.error Fault.div_by_zero :=
  ⟨(C10_no_division_by_zero singular2_args 2 10 (1 / 100)).1, by decide!, by decide!,
    (C10_no_division_by_zero singular2_args 2 10 (1 / 100)).2 1 singular2_at_test1
      (by decide!) (by decide!)⟩

/-! ## C8: breakdown -/

theorem gather_keeps {K : Type} (n : Int) (ranks ranks1 : List (Rank K))
    (h : cg_solver.gather n ranks = Except.ok ranks1) :
    ranks1.map (fun rk => (rk.A, rk.x, rk.r, rk.d, rk.q))
      = ranks.map (fun rk => (rk.A, rk.x, rk.r, rk.d, rk.q)) := by
  apply mapM_ok_preserves _ _ _ _ _ h
  intro rk y hy
  revert hy
  cases MPI_Allgatherv (fun i => cg_solver.recvcounts n ranks.length i)
      (fun i => cg_solver.displs n ranks.length i)
      (ranks.map (fun s => (s.d, (s.A.local_n : Int)))) 0 rk.x_global with
  | none => intro hy; simp at hy
  | some xg =>
    intro hy
    simp only [Except.ok.injEq] at hy
    rw [← hy]

theorem matvec_keeps {K : Type} [Field K] (ranks ranks1 : List (Rank K))
    (h : cg_solver.matvec ranks = Except.ok ranks1) :
    ranks1.map (fun rk => (rk.A, rk.x, rk.r, rk.d, rk.x_global))
      = ranks.map (fun rk => (rk.A, rk.x, rk.r, rk.d, rk.x_global)) := by
  apply mapM_ok_preserves _ _ _ _ _ h
  intro rk y hy
  revert hy
  cases mat_vec_csr rk.A.ptr rk.A.cols rk.A.vals rk.x_global rk.A.local_n with
  | none => intro hy; simp at hy
  | some q =>
    intro hy
    simp only [Except.ok.injEq] at hy
    rw [← hy]

/-- The first half of the loop body leaves `x`, `r`, `d` and the read-only arguments of
every rank as they were. -/
theorem alpha_den_keeps {K : Type} [Field K] (n : Int) (s : Run K) (ranks2 : List (Rank K))
    (ad : K) (h : cg_solver.alpha_den n s = Except.ok (ranks2, ad)) :
    ranks2.map (fun rk => (rk.A, rk.x, rk.r, rk.d))
      = s.ranks.map (fun rk => (rk.A, rk.x, rk.r, rk.d)) := by
  unfold cg_solver.alpha_den at h
  cases hg : cg_solver.gather n s.ranks with
  | error e => rw [hg] at h; simp at h
  | ok ranks1 =>
    rw [hg] at h
    simp only [] at h
    cases hm : cg_solver.matvec ranks1 with
    | error e => rw [hm] at h; simp at h
    | ok ranks2b =>
      rw [hm] at h
      simp only [Except.ok.injEq, Prod.mk.injEq] at h
      have h1 := congrArg (List.map (fun t : Slice K × List K × List K × List K × List K =>
        (t.1, t.2.1, t.2.2.1, t.2.2.2.1))) (gather_keeps n s.ranks ranks1 hg)
      have h2 := congrArg (List.map (fun t : Slice K × List K × List K × List K × List K =>
        (t.1, t.2.1, t.2.2.1, t.2.2.2.1))) (matvec_keeps ranks1 ranks2b hm)
      simp only [List.map_map, Function.comp_def] at h1 h2
      rw [← h.1, h2, h1]

/-- C8. If at the pass entered from the `(k + 1)`-th loop test (`k < max_iter`, test
succeeded) the reduced value `alpha_den` is exactly 0, then `cg_solver` returns after `k`
completed passes, through the `break`, with `x` (and `r`, `d`, `delta`) on every rank equal
to their values on entry to that pass; and this exit is not the Converged exit. -/
theorem C8_breakdown_keeps_iterate {K : Type} [LinearOrderedField K] (args : List (Args K))
    (global_n : Nat) (max_iter : Int) (tol : K) (k : Nat) (s : Run K)
    (ranks2 : List (Rank K))
    (hs : cg_solver.at_test args global_n tol k = some s) (hk : (k : Int) < max_iter)
    (htest : s.delta > tol * tol * s.delta0)
    (hden : cg_solver.alpha_den global_n s = Except.ok (ranks2, 0)) :
    ∃ res, cg_solver args global_n max_iter tol = Except.ok res ∧
      res.breakdown = true ∧ res.iter = k ∧
      res.ranks.map (fun rk => rk.x) = s.ranks.map (fun rk => rk.x) ∧
      res.ranks.map (fun rk => rk.r) = s.ranks.map (fun rk => rk.r) ∧
      res.ranks.map (fun rk => rk.d) = s.ranks.map (fun rk => rk.d) ∧
      res.delta = s.delta ∧ ¬ converged tol res := by
  refine ⟨{ s with ranks := ranks2, breakdown := true }, ?_, rfl,
    (at_test_facts args global_n tol k s hs).2.1, ?_, ?_, ?_, rfl, ?_⟩
  · rw [cg_solver_from_test args global_n max_iter tol k s hs (by omega),
      show max_iter.toNat - k = (max_iter.toNat - (k + 1)) + 1 by omega]
    unfold cg_solver.loop
    rw [if_pos htest, body_breakdown _ s ranks2 hden]
    simp
  · have h := congrArg (List.map (fun t : Slice K × List K × List K × List K => t.2.1))
      (alpha_den_keeps _ s ranks2 0 hden)
    simpa only [List.map_map, Function.comp_def] using h
  · have h := congrArg (List.map (fun t : Slice K × List K × List K × List K => t.2.2.1))
      (alpha_den_keeps _ s ranks2 0 hden)
    simpa only [List.map_map, Function.comp_def] using h
  · have h := congrArg (List.map (fun t : Slice K × List K × List K × List K => t.2.2.2))
      (alpha_den_keeps _ s ranks2 0 hden)
    simpa only [List.map_map, Function.comp_def] using h
  · unfold converged
    simp

/-- C8 on the singular system `[2 0; 0 0] x = [1, 1]`: the second pass finds
`alpha_den = 0` and the run returns `x = [1, 1]`, the iterate on entry to that pass. -/
theorem C8_breakdown_keeps_iterate_witness :
    (cg_solver.at_test singular2_args 2 (1 / 100) 1 = some singular2_at_test1 ∧
      ((1 : Nat) : Int) < 10 ∧
      singular2_at_test1.delta > 1 / 100 * (1 / 100) * singular2_at_test1.delta0 ∧
      cg_solver.alpha_den ((2 : Nat) : Int) singular2_at_test1
        = Except.ok (singular2_pass2, 0)) ∧
    ∃ res, cg_solver singular2_args 2 10 (1 / 100) = Except.ok res ∧
      res.breakdown = true ∧ res.iter = 1 ∧
      res.ranks.map (fun rk => rk.x) = singular2_at_test1.ranks.map (fun rk => rk.x) ∧
      res.ranks.map (fun rk => rk.r) = singular2_at_test1.ranks.map (fun rk => rk.r) ∧
      res.ranks.map (fun rk => rk.d) = singular2_at_test1.ranks.map (fun rk => rk.d) ∧
      res.delta = singular2_at_test1.delta ∧ ¬ converged (1 / 100) res :=
  ⟨⟨by decide!, by decide, by decide!, by decide!⟩,
    C8_breakdown_keeps_iterate singular2_args 2 10 (1 / 100) 1 singular2_at_test1
      singular2_pass2 (by decide!) (by decide) (by decide!) (by decide!)⟩

/-! ## C7: the deterministic convergence example -/

/-- C7. For `A = diag(1, 2, 3, 4)` in CSR, `b = [1, 1, 1, 1]`, `x0 = 0`, `tol = 1e-10` and
any `max_iter >= 4`, `cg_solver` in exact rational arithmetic returns after at most 4
passes, not through the `break`, with `delta <= tol^2 * delta0` and
`x = [1, 1/2, 1/3, 1/4]`. -/
theorem C7_diag4_converges (max_iter : Int) (h : 4 ≤ max_iter) :
    ∃ res, cg_solver diag4_args 4 max_iter (1 / 10 ^ 10) = Except.ok res ∧
      res.iter ≤ 4 ∧ res.breakdown = false ∧
      res.delta ≤ 1 / 10 ^ 10 * (1 / 10 ^ 10) * res.delta0 ∧
      res.ranks.map (fun rk => rk.x) = [[1, 1 / 2, 1 / 3, 1 / 4]] := by
  have h4 : (cg_solver.at_test diag4_args 4 (1 / 10 ^ 10) 4).map
      (fun s => (s.iter, s.breakdown, s.delta, s.delta0, s.ranks.map (fun rk => rk.x)))
      = some (4, false, 0, 4, [[1, 1 / 2, 1 / 3, 1 / 4]]) := by decide!
  cases hs : cg_solver.at_test diag4_args 4 (1 / 10 ^ 10) 4 with
  | none => rw [hs] at h4; simp at h4
  | some s =>
    rw [hs] at h4
    simp only [Option.map_some', Option.some.injEq, Prod.mk.injEq] at h4
    obtain ⟨e1, e2, e3, e4, e5⟩ := h4
    have hconv : s.delta ≤ 1 / 10 ^ 10 * (1 / 10 ^ 10) * s.delta0 := by
      rw [e3, e4]; norm_num
    refine ⟨s, ?_, by omega, e2, hconv, e5⟩
    rw [cg_solver_from_test diag4_args 4 max_iter (1 / 10 ^ 10) 4 s hs (by omega)]
    exact loop_test_fails _ _ _ s (not_lt.mpr hconv)

/-- C7 with the default `max_iter = 1000` of `main`. -/
theorem C7_diag4_converges_witness :
    (4 : Int) ≤ 1000 ∧
    ∃ res, cg_solver diag4_args 4 1000 (1 / 10 ^ 10) = Except.ok res ∧
      res.iter ≤ 4 ∧ res.breakdown = false ∧
      res.delta ≤ 1 / 10 ^ 10 * (1 / 10 ^ 10) * res.delta0 ∧
      res.ranks.map (fun rk => rk.x) = [[1, 1 / 2, 1 / 3, 1 / 4]] :=
  ⟨by decide, C7_diag4_converges 1000 (by decide)⟩

/-! ## The solver on well-formed input: gather and matrix-vector product -/

/-- Receiving the blocks `sends` of the ranks `i, i + 1, ..., P - 1`, whose counts are the
table's, into a buffer that starts with `pre` (`cut i` entries) yields `pre` followed by
the blocks, `N` entries in all. -/
theorem allgatherv_blocks {K : Type} {n p : Int} (N : Nat) (hnN : n = N) (hn : 1 ≤ n)
    (hp : 1 ≤ p) (hf : fits_int n p) (hc : exact_cover n p) (sends : List (List K × Int)) (i : Nat)
    (buf pre : List K) (hi : ((i + sends.length : Nat) : Int) = p)
    (hcnt : sends.map Prod.snd
      = (List.range' i sends.length).map (fun (j : Nat) => cg_solver.recvcounts n p j))
    (hlen : ∀ sc ∈ sends, (sc.1.length : Int) = sc.2)
    (hbuf : buf.length = N) (hpl : pre.length = (cut n p i).toNat)
    (hpre : buf.take pre.length = pre) :
    MPI_Allgatherv (fun j => cg_solver.recvcounts n p j) (fun j => cg_solver.displs n p j)
        sends i buf = some (pre ++ (sends.map Prod.fst).flatten) ∧
      (pre ++ (sends.map Prod.fst).flatten).length = N := by
  induction sends generalizing i buf pre with
  | nil =>
    have hip : (i : Int) = p := by simpa using hi
    rw [hip, cut_last hn hp hf, hnN, Int.toNat_ofNat] at hpl
    rw [hpl, List.take_of_length_le (by omega)] at hpre
    simp only [MPI_Allgatherv, List.map_nil, List.flatten_nil, List.append_nil]
    exact ⟨by rw [hpre], hpl⟩
  | cons sc rest ih =>
    obtain ⟨sb, cnt⟩ := sc
    have hr : (i : Int) < p := by
      rw [List.length_cons] at hi; push_cast at hi; omega
    obtain ⟨h1, h2, h3, h4, h5⟩ := exact_block hn hp hf hc i hr
    rw [List.length_cons, List.range'_succ, List.map_cons, List.map_cons,
      List.cons.injEq] at hcnt
    have hcnt1 : cnt = cg_solver.recvcounts n p i := hcnt.1
    have hsb : (sb.length : Int) = cnt := hlen (sb, cnt) (List.mem_cons_self _ _)
    have hsbn : sb.length = (cg_solver.recvcounts n p i).toNat := by omega
    rw [MPI_Allgatherv]
    have hcond : cnt = cg_solver.recvcounts n p i ∧ 0 ≤ cnt ∧ cnt.toNat ≤ sb.length ∧
        0 ≤ cg_solver.displs n p i ∧
        (cg_solver.displs n p i + cg_solver.recvcounts n p i).toNat ≤ buf.length := by
      refine ⟨hcnt1, by omega, by omega, h3, by omega⟩
    rw [if_pos hcond, List.take_of_length_le (by omega), h1, ← hpl]
    have hstep := ih (i + 1) (blit buf pre.length sb) (pre ++ sb)
      (by rw [List.length_cons] at hi; push_cast at hi ⊢; omega) hcnt.2
      (fun sc hsc => hlen sc (List.mem_cons_of_mem _ hsc))
      (by rw [blit_length _ _ _ (by omega), hbuf])
      (by rw [List.length_append, Nat.cast_add, Nat.cast_one, ← h2, hpl, hsbn])
      (by rw [List.length_append, blit_take _ _ _ (by omega), hpre])
    rw [List.map_cons, List.flatten_cons, ← List.append_assoc]
    exact hstep

theorem ranks_ok_local_n {K : Type} {N : Nat} {ranks : List (Rank K)}
    (h : ranks_ok N ranks) :
    (ranks.map (fun s => (s.d, (s.A.local_n : Int)))).map Prod.snd
      = (List.range' 0 (ranks.map (fun s => (s.d, (s.A.local_n : Int)))).length).map
          (fun (j : Nat) => cg_solver.recvcounts N ranks.length j) := by
  rw [List.map_map, List.length_map, ← List.range_eq_range', ← h.2.2.2.1]
  rfl

/-- On well-formed arrays the gather succeeds and leaves the global direction, `global_n`
entries, in `x_global` on every rank. -/
theorem gather_ok {K : Type} (N : Nat) (ranks : List (Rank K)) (h : ranks_ok N ranks) :
    cg_solver.gather N ranks
      = Except.ok (ranks.map (fun rk => { rk with x_global := direction ranks })) ∧
    (direction ranks).length = N := by
  have hn : (1 : Int) ≤ N := by exact_mod_cast h.1
  have hp : (1 : Int) ≤ ranks.length := by exact_mod_cast h.2.1
  have hlen : ∀ sc ∈ ranks.map (fun s => (s.d, (s.A.local_n : Int))),
      (sc.1.length : Int) = sc.2 := by
    intro sc hsc
    rw [List.mem_map] at hsc
    obtain ⟨s, hs, rfl⟩ := hsc
    have := (h.2.2.2.2 s hs).2.2.2.2.1
    simp only []
    omega
  have hfst : (ranks.map (fun s => (s.d, (s.A.local_n : Int)))).map Prod.fst
      = ranks.map (fun rk => rk.d) := by
    rw [List.map_map]; rfl
  have key : ∀ buf : List K, buf.length = N →
      MPI_Allgatherv (fun j => cg_solver.recvcounts N ranks.length j)
        (fun j => cg_solver.displs N ranks.length j)
        (ranks.map (fun s => (s.d, (s.A.local_n : Int)))) 0 buf = some (direction ranks) ∧
      (direction ranks).length = N := by
    intro buf hbuf
    have := allgatherv_blocks N rfl hn hp h.2.2.1.1 h.2.2.1.2
      (ranks.map (fun s => (s.d, (s.A.local_n : Int)))) 0 buf [] (by simp)
      (ranks_ok_local_n h) hlen hbuf
      (by rw [Nat.cast_zero, cut_zero hn]; rfl) (by simp)
    rw [hfst, List.nil_append] at this
    exact this
  constructor
  · unfold cg_solver.gather
    apply mapM_ok_map
    intro rk hrk
    rw [(key rk.x_global (h.2.2.2.2 rk hrk).2.2.2.2.2).1]
  · obtain ⟨rk, hrk⟩ := List.exists_mem_of_length_pos (by omega : 0 < ranks.length)
    exact (key rk.x_global (h.2.2.2.2 rk hrk).2.2.2.2.2).2

/-- On well-formed slices and full-length `x_global` the matrix-vector product succeeds and
leaves the row sums in `q`. -/
theorem matvec_ok {K : Type} [Field K] (N : Nat) (ranks : List (Rank K))
    (h : ∀ rk ∈ ranks, csr_ok rk.A.ptr rk.A.cols rk.A.vals rk.A.local_n N ∧
      rk.x_global.length = N) :
    cg_solver.matvec ranks = Except.ok (ranks.map (fun rk =>
      { rk with
        q := ((List.range rk.A.local_n).map
          (row_sum rk.A.ptr rk.A.cols rk.A.vals rk.x_global)) })) := by
  unfold cg_solver.matvec
  apply mapM_ok_map
  intro rk hrk
  rw [mat_vec_csr_eq _ _ _ _ _ N (h rk hrk).1 (h rk hrk).2 _ le_rfl]

/-- On well-formed arrays the first half of a pass succeeds. -/
theorem alpha_den_ok {K : Type} [Field K] (N : Nat) (s : Run K) (h : ranks_ok N s.ranks) :
    cg_solver.alpha_den N s = Except.ok (pass_front s.ranks,
      dot_allreduce ((pass_front s.ranks).map (fun rk => dot rk.d rk.q rk.A.local_n))) := by
  unfold cg_solver.alpha_den
  obtain ⟨hg, hD⟩ := gather_ok N s.ranks h
  rw [hg]
  simp only []
  rw [matvec_ok N]
  · unfold pass_front front_rank
    simp only [List.map_map, Function.comp_def]
  · intro rk hrk
    rw [List.mem_map] at hrk
    obtain ⟨rk0, h0, rfl⟩ := hrk
    exact ⟨(h.2.2.2.2 rk0 h0).1, hD⟩

/-! ## List and sum lemmas for the residual invariant -/

theorem getD_range_map {K : Type} [Field K] (n : Nat) (f : Nat → K) (i : Nat) (hi : i < n) :
    ((List.range n).map f).getD i 0 = f i := by
  rw [List.getD_eq_getElem _ _ (by rw [List.length_map, List.length_range]; exact hi),
    List.getElem_map, List.getElem_range]

theorem dot_congr {K : Type} [Field K] (u v u2 v2 : List K) (n : Nat)
    (hu : ∀ i < n, u.getD i 0 = u2.getD i 0) (hv : ∀ i < n, v.getD i 0 = v2.getD i 0) :
    dot u v n = dot u2 v2 n := by
  rw [dot_eq_sum, dot_eq_sum]
  apply Finset.sum_congr rfl
  intro i hi
  rw [Finset.mem_range] at hi
  rw [hu i hi, hv i hi]

/-- The dot product of a list given by a formula with itself. -/
theorem dot_range_map {K : Type} [Field K] (n : Nat) (f : Nat → K) :
    dot ((List.range n).map f) ((List.range n).map f) n
      = ∑ i ∈ Finset.range n, f i ^ 2 := by
  rw [dot_eq_sum]
  apply Finset.sum_congr rfl
  intro i hi
  rw [Finset.mem_range] at hi
  rw [getD_range_map n f i hi, pow_two]

/-- Entrywise linear combinations commute with concatenation when the pieces have equal
lengths. -/
theorem getD_flatten_combine {ι K : Type} [Field K] (l : List ι) (f g h : ι → List K)
    (α : K)
    (hlen : ∀ a ∈ l, (f a).length = (g a).length ∧ (h a).length = (g a).length)
    (hpt : ∀ a ∈ l, ∀ i, (f a).getD i 0 = (g a).getD i 0 + α * (h a).getD i 0) (c : Nat) :
    ((l.map f).flatten).getD c 0
      = ((l.map g).flatten).getD c 0 + α * ((l.map h).flatten).getD c 0 := by
  induction l generalizing c with
  | nil => simp
  | cons a l ih =>
    have hl := hlen a (List.mem_cons_self _ _)
    have hp := hpt a (List.mem_cons_self _ _)
    rw [List.map_cons, List.map_cons, List.map_cons, List.flatten_cons, List.flatten_cons,
      List.flatten_cons]
    by_cases hc : c < (g a).length
    · rw [List.getD_append _ _ _ _ (by omega), List.getD_append _ _ _ _ hc,
        List.getD_append _ _ _ _ (by omega), hp c]
    · rw [List.getD_append_right _ _ _ _ (by omega), List.getD_append_right _ _ _ _ (by omega),
        List.getD_append_right _ _ _ _ (by omega), hl.1, hl.2]
      exact ih (fun b hb => hlen b (List.mem_cons_of_mem _ hb))
        (fun b hb => hpt b (List.mem_cons_of_mem _ hb)) _

/-- The row sum is linear in the global vector. -/
theorem row_sum_combine {K : Type} [Field K] (ptr cols : List Int) (vals X2 X D : List K)
    (α : K) (h : ∀ c, X2.getD c 0 = X.getD c 0 + α * D.getD c 0) (i : Nat) :
    row_sum ptr cols vals X2 i
      = row_sum ptr cols vals X i + α * row_sum ptr cols vals D i := by
  unfold row_sum
  rw [Finset.mul_sum, ← Finset.sum_add_distrib]
  apply Finset.sum_congr rfl
  intro j _
  rw [h]
  ring

theorem getD_all_zero {K : Type} [Field K] (l : List K) (h : ∀ y ∈ l, y = 0) (c : Nat) :
    l.getD c 0 = 0 := by
  by_cases hc : c < l.length
  · rw [List.getD_eq_getElem l 0 hc]
    exact h _ (List.getElem_mem hc)
  · exact List.getD_eq_default l 0 (by omega)

theorem row_sum_zero {K : Type} [Field K] (ptr cols : List Int) (vals X : List K)
    (h : ∀ y ∈ X, y = 0) (i : Nat) : row_sum ptr cols vals X i = 0 := by
  unfold row_sum
  apply Finset.sum_eq_zero
  intro j _
  rw [getD_all_zero X h, mul_zero]

/-! ## The residual invariant of the loop -/

theorem pass_next_eq {K : Type} [Field K] (alpha beta : K) (ranks : List (Rank K)) :
    pass_next alpha beta ranks = ranks.map (pass_rank alpha beta (direction ranks)) := by
  unfold pass_next pass_front pass_rank
  simp only [List.map_map, Function.comp_def]

/-- The new `x` of a rank is `x + alpha * d`, entry by entry (zero beyond the array). -/
theorem pass_rank_x_getD {K : Type} [Field K] (alpha beta : K) (D : List K) (rk : Rank K)
    (hx : rk.x.length = rk.A.local_n) (hd : rk.d.length = rk.A.local_n) (i : Nat) :
    (pass_rank alpha beta D rk).x.getD i 0 = rk.x.getD i 0 + alpha * rk.d.getD i 0 := by
  have hx2 : (pass_rank alpha beta D rk).x
      = (List.range rk.A.local_n).map (fun i => rk.x.getD i 0 + alpha * rk.d.getD i 0) := by
    unfold pass_rank cg_solver.update_d cg_solver.update_x_r front_rank
    simp only []
    rw [List.drop_of_length_le (by omega), List.append_nil]
  rw [hx2]
  by_cases hi : i < rk.A.local_n
  · rw [getD_range_map _ _ i hi]
  · rw [List.getD_eq_default _ _ (by rw [List.length_map, List.length_range]; omega),
      List.getD_eq_default _ _ (by omega), List.getD_eq_default _ _ (by omega)]
    ring

theorem pass_rank_x_length {K : Type} [Field K] (alpha beta : K) (D : List K) (rk : Rank K)
    (hx : rk.x.length = rk.A.local_n) :
    (pass_rank alpha beta D rk).x.length = rk.A.local_n := by
  unfold pass_rank cg_solver.update_d cg_solver.update_x_r front_rank
  simp only []
  rw [List.length_append, List.length_map, List.length_range, List.length_drop]
  omega

/-- The global iterate after a pass is `X + alpha * D`, entry by entry. -/
theorem solution_pass_next {K : Type} [Field K] (alpha beta : K) (N : Nat)
    (ranks : List (Rank K)) (h : ranks_ok N ranks) (c : Nat) :
    (solution (pass_next alpha beta ranks)).getD c 0
      = (solution ranks).getD c 0 + alpha * (direction ranks).getD c 0 := by
  unfold solution direction
  rw [pass_next_eq, List.map_map]
  apply getD_flatten_combine ranks
    (fun rk => (pass_rank alpha beta ((ranks.map (fun rk => rk.d)).flatten) rk).x)
    (fun rk => rk.x) (fun rk => rk.d) alpha
  · intro rk hrk
    obtain ⟨_, _, hx, _, hd, _⟩ := h.2.2.2.2 rk hrk
    exact ⟨by rw [pass_rank_x_length _ _ _ rk hx, hx], by rw [hd, hx]⟩
  · intro rk hrk i
    obtain ⟨_, _, hx, _, hd, _⟩ := h.2.2.2.2 rk hrk
    exact pass_rank_x_getD alpha beta _ rk hx hd i

theorem ranks_ok_pass_next {K : Type} [Field K] (alpha beta : K) (N : Nat)
    (ranks : List (Rank K)) (h : ranks_ok N ranks) : ranks_ok N (pass_next alpha beta ranks) := by
  have hD := (gather_ok N ranks h).2
  rw [pass_next_eq]
  refine ⟨h.1, by rw [List.length_map]; exact h.2.1, by rw [List.length_map]; exact h.2.2.1,
    ?_, ?_⟩
  · rw [List.length_map, List.map_map, ← h.2.2.2.1]
    rfl
  · intro rk2 hrk2
    rw [List.mem_map] at hrk2
    obtain ⟨rk, hrk, rfl⟩ := hrk2
    obtain ⟨h1, h2, hx, _, _, _⟩ := h.2.2.2.2 rk hrk
    refine ⟨h1, h2, pass_rank_x_length _ _ _ rk hx, ?_, ?_, hD⟩
    · unfold pass_rank cg_solver.update_d cg_solver.update_x_r front_rank
      simp only []
      rw [List.length_map, List.length_range]
    · unfold pass_rank cg_solver.update_d cg_solver.update_x_r front_rank
      simp only []
      rw [List.length_map, List.length_range]

/-- The update `r -= alpha * q` keeps `r` the stored residual of the new iterate. -/
theorem pass_rank_r {K : Type} [Field K] (alpha beta : K) (D X X2 X0 : List K) (rk : Rank K)
    (hr : rk.r = stored_residual rk.A X X0)
    (hX : ∀ c, X2.getD c 0 = X.getD c 0 + alpha * D.getD c 0) :
    (pass_rank alpha beta D rk).r = stored_residual rk.A X2 X0 := by
  have hr2 : (pass_rank alpha beta D rk).r
      = (List.range rk.A.local_n).map (fun i => rk.r.getD i 0 - alpha *
          ((List.range rk.A.local_n).map
            (row_sum rk.A.ptr rk.A.cols rk.A.vals D)).getD i 0) := rfl
  rw [hr2]
  unfold stored_residual
  apply List.map_congr_left
  intro i hi
  rw [List.mem_range] at hi
  rw [getD_range_map _ _ i hi, hr]
  unfold stored_residual
  rw [getD_range_map _ _ i hi, row_sum_combine _ _ _ X2 X D alpha hX]
  ring

/-- A complete pass keeps the invariant. -/
theorem cg_inv_pass {K : Type} [Field K] (args : List (Args K)) (N : Nat) (s : Run K)
    (alpha beta : K) (h : cg_inv args N s) :
    cg_inv args N
      { s with
        ranks := pass_next alpha beta s.ranks,
        delta := dot_allreduce (((pass_front s.ranks).map (cg_solver.update_x_r alpha)).map
          (fun rk => dot rk.r rk.r rk.A.local_n)),
        iter := s.iter + 1 } := by
  obtain ⟨h1, h2, h3, h4, _, h6⟩ := h
  refine ⟨ranks_ok_pass_next alpha beta N s.ranks h1, ?_, h3, ?_, ?_, h6⟩
  · simp only []
    rw [pass_next_eq, List.map_map, ← h2]
    rfl
  · intro rk2 hrk2
    simp only [] at hrk2 ⊢
    rw [pass_next_eq, List.mem_map] at hrk2
    obtain ⟨rk, hrk, rfl⟩ := hrk2
    exact pass_rank_r alpha beta (direction s.ranks) (solution s.ranks) _ _ rk (h4 rk hrk)
      (solution_pass_next alpha beta N s.ranks h1)
  · simp only []
    unfold pass_next
    rw [List.map_map (f := cg_solver.update_d beta)]
    rfl

theorem init_rank_r {K : Type} [Field K] (N : Nat) (a : Args K) (X0 : List K) :
    (init_rank N a).r = stored_residual a.A X0 X0 := by
  have hr : (init_rank N a).r
      = (List.range a.A.local_n).map (fun i => a.A.b.getD i 0 -
          ((List.range a.A.local_n).map
            (row_sum a.A.ptr a.A.cols a.A.vals (List.replicate N 0))).getD i 0) := rfl
  rw [hr]
  unfold stored_residual
  apply List.map_congr_left
  intro i hi
  rw [List.mem_range] at hi
  rw [getD_range_map _ _ i hi,
    row_sum_zero _ _ _ _ (fun y hy => List.eq_of_mem_replicate hy)]
  ring

theorem init_rank_dot {K : Type} [Field K] (N : Nat) (a : Args K) :
    dot (init_rank N a).r (init_rank N a).r a.A.local_n = dot a.A.b a.A.b a.A.local_n := by
  have hr : (init_rank N a).r
      = (List.range a.A.local_n).map (fun i => a.A.b.getD i 0 -
          ((List.range a.A.local_n).map
            (row_sum a.A.ptr a.A.cols a.A.vals (List.replicate N 0))).getD i 0) := rfl
  have hget : ∀ i < a.A.local_n, (init_rank N a).r.getD i 0 = a.A.b.getD i 0 := by
    intro i hi
    rw [hr, getD_range_map _ _ i hi, getD_range_map _ _ i hi,
      row_sum_zero _ _ _ _ (fun y hy => List.eq_of_mem_replicate hy), sub_zero]
  exact dot_congr _ _ _ _ _ hget hget

/-- On well-formed input the state at the first loop test exists and satisfies the
invariant. -/
theorem cg_inv_init {K : Type} [Field K] (args : List (Args K)) (N : Nat)
    (h : args_ok args N) :
    ∃ s0, cg_solver.init args N = Except.ok s0 ∧ cg_inv args N s0 := by
  obtain ⟨h1, h2, h3, h4, h5⟩ := h
  have hm : cg_solver.matvec (args.map (cg_solver.alloc N))
      = Except.ok ((args.map (cg_solver.alloc N)).map
          (front_rank (List.replicate N 0))) := by
    rw [matvec_ok N]
    · apply congrArg
      apply List.map_congr_left
      intro rk hrk
      rw [List.mem_map] at hrk
      obtain ⟨a, _, rfl⟩ := hrk
      rfl
    · intro rk hrk
      rw [List.mem_map] at hrk
      obtain ⟨a, ha, rfl⟩ := hrk
      exact ⟨(h5 a ha).1, List.length_replicate _ _⟩
  have hranks : ((args.map (cg_solver.alloc N)).map (front_rank (List.replicate N 0))).map
      cg_solver.init_r_d = args.map (init_rank N) := by
    rw [List.map_map, List.map_map]
    rfl
  refine ⟨_, by unfold cg_solver.init; rw [hm], ?_⟩
  simp only [hranks]
  refine ⟨⟨h1, by rw [List.length_map]; exact h2, by rw [List.length_map]; exact h3, ?_, ?_⟩,
    ?_, rfl, ?_, rfl, ?_⟩
  · rw [List.length_map, List.map_map, ← h4]
    rfl
  · intro rk hrk
    rw [List.mem_map] at hrk
    obtain ⟨a, ha, rfl⟩ := hrk
    obtain ⟨c1, c2, c3⟩ := h5 a ha
    refine ⟨c1, c2, c3, ?_, ?_, List.length_replicate _ _⟩
    · unfold init_rank cg_solver.init_r_d
      simp only []
      rw [List.length_map, List.length_range]
    · unfold init_rank cg_solver.init_r_d
      simp only []
      rw [List.length_map, List.length_range]
  · rw [List.map_map]
    rfl
  · intro rk hrk
    rw [List.mem_map] at hrk
    obtain ⟨a, ha, rfl⟩ := hrk
    have hsol : solution (args.map (init_rank N)) = initial_guess args := by
      unfold solution initial_guess
      rw [List.map_map]
      rfl
    rw [hsol]
    exact init_rank_r N a _
  · simp only []
    rw [List.map_map]
    apply congrArg
    apply List.map_congr_left
    intro a _
    exact init_rank_dot N a

theorem sum_dot_nonneg {K : Type} [LinearOrderedField K] (args : List (Args K)) :
    0 ≤ dot_allreduce (args.map (fun a => dot a.A.b a.A.b a.A.local_n)) := by
  unfold dot_allreduce
  apply List.sum_nonneg
  intro x hx
  rw [List.mem_map] at hx
  obtain ⟨a, _, rfl⟩ := hx
  exact dot_self_nonneg _ _

/-- On well-formed arrays the loop returns, and it returns either through the `break` or
in a state that satisfies the invariant. -/
theorem cg_inv_loop {K : Type} [LinearOrderedField K] (args : List (Args K)) (N : Nat)
    (tol : K) (fuel : Nat) (s : Run K) (h : cg_inv args N s) :
    ∃ res, cg_solver.loop N tol fuel s = Except.ok res ∧
      (res.breakdown = false → cg_inv args N res) := by
  induction fuel generalizing s with
  | zero => exact ⟨s, rfl, fun _ => h⟩
  | succ fuel ih =>
    unfold cg_solver.loop
    by_cases ht : s.delta > tol * tol * s.delta0
    · rw [if_pos ht]
      have h0 : 0 ≤ s.delta0 := by rw [h.2.2.2.2.2]; exact sum_dot_nonneg args
      have hd : s.delta ≠ 0 := ne_of_gt (test_delta_pos tol s h0 ht)
      have ha := alpha_den_ok N s h.1
      by_cases had : dot_allreduce ((pass_front s.ranks).map
          (fun rk => dot rk.d rk.q rk.A.local_n)) = 0
      · rw [had] at ha
        rw [body_breakdown _ s _ ha]
        simp only [if_true]
        exact ⟨_, rfl, fun hb => by simp at hb⟩
      · rw [body_step _ s _ _ ha had hd]
        simp only []
        rw [if_neg (by rw [h.2.2.1]; simp)]
        exact ih _ (cg_inv_pass args N s _ _ h)
    · rw [if_neg ht]
      exact ⟨s, rfl, fun _ => h⟩

/-- Under the invariant, with a zero initial guess, `delta` is the squared norm of the
true residual `A X - b` and `delta0` that of `A X0 - b`. -/
theorem cg_inv_residual {K : Type} [Field K] (args : List (Args K)) (N : Nat) (s : Run K)
    (h : cg_inv args N s) (hx0 : ∀ a ∈ args, a.x = List.replicate a.A.local_n 0) :
    s.delta = residual_sq (args.map (fun a => a.A)) (solution s.ranks) ∧
    s.delta0 = residual_sq (args.map (fun a => a.A)) (initial_guess args) := by
  have hzero : ∀ y ∈ initial_guess args, y = 0 := by
    intro y hy
    unfold initial_guess at hy
    rw [List.mem_flatten] at hy
    obtain ⟨l, hl, hyl⟩ := hy
    rw [List.mem_map] at hl
    obtain ⟨a, ha, rfl⟩ := hl
    rw [hx0 a ha] at hyl
    exact List.eq_of_mem_replicate hyl
  obtain ⟨_, h2, _, h4, h5, h6⟩ := h
  constructor
  · rw [h5]
    unfold residual_sq dot_allreduce
    rw [← h2, List.map_map]
    apply congrArg
    apply List.map_congr_left
    intro rk hrk
    rw [h4 rk hrk]
    unfold stored_residual
    rw [dot_range_map]
    apply Finset.sum_congr rfl
    intro i _
    simp only [Function.comp_apply]
    rw [row_sum_zero _ _ _ _ hzero]
    ring
  · rw [h6]
    unfold residual_sq dot_allreduce
    rw [List.map_map]
    apply congrArg
    apply List.map_congr_left
    intro a _
    rw [dot_eq_sum]
    apply Finset.sum_congr rfl
    intro i _
    simp only [Function.comp_apply]
    rw [row_sum_zero _ _ _ _ hzero]
    ring

/-! ## C1: the residual bound at the Converged exit -/

/-- C1 as stated fails.  First input: `1 * x = 1`, `x0 = 0`, `tol = -1/2`: the run leaves
the loop with `delta = 0 <= tol^2 * delta0`, the norms are `||A x - b|| = 0` and
`||b - A x0|| = 1`, and `0 <= -1/2 * 1` is false (the test squares `tol`).  Second input:
`1 * x = 1`, `x0 = 1`, `tol = 1/2`: the initial residual is computed from the zeroed
`x_global`, not from `x0`, the run returns `x = 2` with `delta = 0`, the norms are
`||A x - b|| = 1` and `||b - A x0|| = 0`, and `1 <= 1/2 * 0` is false. -/
theorem C1_fails_as_stated :
    (cg_solver (one_by_one_args 0) 1 10 (-1 / 2) = Except.ok (one_by_one_final 0) ∧
      converged (-1 / 2) (one_by_one_final 0) ∧
      (0 : ℚ) ^ 2 = residual_sq ((one_by_one_args 0).map (fun a => a.A))
        (solution (one_by_one_final 0).ranks) ∧
      (1 : ℚ) ^ 2 = residual_sq ((one_by_one_args 0).map (fun a => a.A))
        (initial_guess (one_by_one_args 0)) ∧
      ¬ ((0 : ℚ) ≤ -1 / 2 * 1)) ∧
    (cg_solver (one_by_one_args 1) 1 10 (1 / 2) = Except.ok (one_by_one_final 1) ∧
      converged (1 / 2) (one_by_one_final 1) ∧
      (1 : ℚ) ^ 2 = residual_sq ((one_by_one_args 1).map (fun a => a.A))
        (solution (one_by_one_final 1).ranks) ∧
      (0 : ℚ) ^ 2 = residual_sq ((one_by_one_args 1).map (fun a => a.A))
        (initial_guess (one_by_one_args 1)) ∧
      ¬ ((1 : ℚ) ≤ 1 / 2 * 0)) := by
  refine ⟨⟨by decide!, by decide!, by decide!, by decide!, by decide!⟩,
    ⟨by decide!, by decide!, by decide!, by decide!, by decide!⟩⟩

/-- C1, amended.  In exact arithmetic, on every well-formed input (any matrix, symmetric
positive definite or not; an exact block partition with `global_n + p - 1 < 2^31`, so that
the `int` arithmetic of the table does not overflow) with zero initial guess, every
`tol >= 0` and every `max_iter`:
`cg_solver` returns, and if it returns at the Converged exit (no `break`,
`delta <= tol^2 * delta0`) then the global `x` it returns satisfies
`||A x - b||^2 <= tol^2 * ||b - A x0||^2`, that is `||A x - b|| <= tol * ||b - A x0||` for
the nonnegative square roots. -/
theorem C1_converged_residual_bound {K : Type} [LinearOrderedField K] (args : List (Args K))
    (global_n : Nat) (max_iter : Int) (tol : K) (hok : args_ok args global_n)
    (hx0 : ∀ a ∈ args, a.x = List.replicate a.A.local_n 0) (htol : 0 ≤ tol) :
    ∃ res, cg_solver args global_n max_iter tol = Except.ok res ∧
      (converged tol res →
        residual_sq (args.map (fun a => a.A)) (solution res.ranks)
          ≤ tol ^ 2 * residual_sq (args.map (fun a => a.A)) (initial_guess args) ∧
        ∀ ν ν0 : K, 0 ≤ ν → 0 ≤ ν0 →
          ν ^ 2 = residual_sq (args.map (fun a => a.A)) (solution res.ranks) →
          ν0 ^ 2 = residual_sq (args.map (fun a => a.A)) (initial_guess args) →
          ν ≤ tol * ν0) := by
  obtain ⟨s0, hs0, hinv0⟩ := cg_inv_init args global_n hok
  obtain ⟨res, hres, hinv⟩ := cg_inv_loop args global_n tol max_iter.toNat s0 hinv0
  refine ⟨res, by unfold cg_solver; rw [hs0]; exact hres, ?_⟩
  rintro ⟨hb, hconv⟩
  obtain ⟨e1, e2⟩ := cg_inv_residual args global_n res (hinv hb) hx0
  have hle : residual_sq (args.map (fun a => a.A)) (solution res.ranks)
      ≤ tol ^ 2 * residual_sq (args.map (fun a => a.A)) (initial_guess args) := by
    rw [← e1, ← e2, pow_two]; exact hconv
  refine ⟨hle, ?_⟩
  intro ν ν0 hν hν0 h1 h2
  rw [← h1, ← h2] at hle
  by_contra hcon
  have hlt : tol * ν0 < ν := not_le.mp hcon
  have h3 : 0 ≤ tol * ν0 := mul_nonneg htol hν0
  nlinarith

/-- C1, amended, on `diag(1, 2, 3, 4) x = [1, 1, 1, 1]` split over two ranks, `x0 = 0`,
`tol = 1e-10`, `max_iter = 1000`: the run returns at the Converged exit and the bound
holds. -/
theorem C1_converged_residual_bound_witness :
    (args_ok diag4_two_ranks 4 ∧
      (∀ a ∈ diag4_two_ranks, a.x = List.replicate a.A.local_n 0) ∧
      (0 : ℚ) ≤ 1 / 10 ^ 10) ∧
    ∃ res, cg_solver diag4_two_ranks 4 1000 (1 / 10 ^ 10) = Except.ok res ∧
      converged (1 / 10 ^ 10) res ∧
      residual_sq (diag4_two_ranks.map (fun a => a.A)) (solution res.ranks)
        ≤ (1 / 10 ^ 10) ^ 2
          * residual_sq (diag4_two_ranks.map (fun a => a.A)) (initial_guess diag4_two_ranks) ∧
      ∀ ν ν0 : ℚ, 0 ≤ ν → 0 ≤ ν0 →
        ν ^ 2 = residual_sq (diag4_two_ranks.map (fun a => a.A)) (solution res.ranks) →
        ν0 ^ 2 = residual_sq (diag4_two_ranks.map (fun a => a.A))
          (initial_guess diag4_two_ranks) →
        ν ≤ 1 / 10 ^ 10 * ν0 := by
  have hrun : (match cg_solver diag4_two_ranks 4 1000 (1 / 10 ^ 10) with
      | Except.ok r => decide (converged (1 / 10 ^ 10) r)
      | Except.error _ => false) = true := by decide!
  obtain ⟨res, hres, himp⟩ := C1_converged_residual_bound diag4_two_ranks 4 1000
    (1 / 10 ^ 10) (by decide!) (by decide!) (by decide!)
  rw [hres] at hrun
  have hconv : converged (1 / 10 ^ 10) res := of_decide_eq_true hrun
  exact ⟨⟨by decide!, by decide!, by decide!⟩, res, hres, hconv, (himp hconv).1,
    (himp hconv).2⟩

/-! ## C11: the residual invariant of the code as written -/

/-- Every state in which the loop test is evaluated satisfies the loop invariant. -/
theorem cg_inv_at_test {K : Type} [LinearOrderedField K] (args : List (Args K)) (N : Nat)
    (tol : K) (hok : args_ok args N) (k : Nat) (s : Run K)
    (hs : cg_solver.at_test args N tol k = some s) : cg_inv args N s := by
  induction k generalizing s with
  | zero =>
    obtain ⟨s0, hs0, hinv0⟩ := cg_inv_init args N hok
    unfold cg_solver.at_test at hs
    rw [hs0] at hs
    simp only [Option.some.injEq] at hs
    rw [← hs]; exact hinv0
  | succ k ih =>
    unfold cg_solver.at_test at hs
    cases hk : cg_solver.at_test args N tol k with
    | none => rw [hk] at hs; simp at hs
    | some s0 =>
      rw [hk] at hs
      simp only [] at hs
      have hinv := ih s0 hk
      by_cases ht : s0.delta > tol * tol * s0.delta0
      · rw [if_pos ht] at hs
        have h0 : 0 ≤ s0.delta0 := by rw [hinv.2.2.2.2.2]; exact sum_dot_nonneg args
        have hd : s0.delta ≠ 0 := ne_of_gt (test_delta_pos tol s0 h0 ht)
        have ha := alpha_den_ok N s0 hinv.1
        by_cases had : dot_allreduce ((pass_front s0.ranks).map
            (fun rk => dot rk.d rk.q rk.A.local_n)) = 0
        · rw [had] at ha
          rw [body_breakdown _ s0 _ ha] at hs
          simp at hs
        · rw [body_step _ s0 _ _ ha had hd] at hs
          simp only [] at hs
          rw [if_neg (by rw [hinv.2.2.1]; simp)] at hs
          simp only [Option.some.injEq] at hs
          rw [← hs]
          exact cg_inv_pass args N s0 _ _ hinv
      · rw [if_neg ht] at hs; simp at hs

theorem getD_vec_sub {K : Type} [Field K] (X X0 : List K) (h : X.length = X0.length)
    (c : Nat) : (vec_sub X X0).getD c 0 = X.getD c 0 - X0.getD c 0 := by
  unfold vec_sub
  by_cases hc : c < X.length
  · rw [List.getD_eq_getElem _ _ (by rw [List.length_zipWith]; omega),
      List.getD_eq_getElem _ _ hc, List.getD_eq_getElem _ _ (by omega : c < X0.length),
      List.getElem_zipWith]
  · rw [List.getD_eq_default _ _ (by rw [List.length_zipWith]; omega),
      List.getD_eq_default _ _ (by omega), List.getD_eq_default _ _ (by omega), sub_zero]

/-- The row sum of a difference is the difference of the row sums. -/
theorem row_sum_vec_sub {K : Type} [Field K] (ptr cols : List Int) (vals X X0 : List K)
    (h : X.length = X0.length) (i : Nat) :
    row_sum ptr cols vals (vec_sub X X0) i
      = row_sum ptr cols vals X i - row_sum ptr cols vals X0 i := by
  have hc := row_sum_combine ptr cols vals X (vec_sub X X0) X0 1
    (fun c => by rw [getD_vec_sub X X0 h c]; ring) i
  rw [hc]; ring

/-- The global iterate holds as many entries as the ranks have rows in all. -/
theorem solution_length {K : Type} (ranks : List (Rank K))
    (h : ∀ rk ∈ ranks, rk.x.length = rk.A.local_n) :
    (solution ranks).length = (ranks.map (fun rk => rk.A.local_n)).sum := by
  unfold solution
  rw [List.length_flatten, List.map_map]
  apply congrArg
  apply List.map_congr_left
  intro rk hrk
  exact h rk hrk

theorem initial_guess_length {K : Type} (args : List (Args K))
    (h : ∀ a ∈ args, a.x.length = a.A.local_n) :
    (initial_guess args).length = (args.map (fun a => a.A.local_n)).sum := by
  unfold initial_guess
  rw [List.length_flatten, List.map_map]
  apply congrArg
  apply List.map_congr_left
  intro a ha
  exact h a ha

/-- Under the invariant the current global iterate and the global initial guess have the
same length. -/
theorem cg_inv_lengths {K : Type} [Field K] (args : List (Args K)) (N : Nat) (s : Run K)
    (hok : args_ok args N) (h : cg_inv args N s) :
    (solution s.ranks).length = (initial_guess args).length := by
  rw [solution_length s.ranks (fun rk hrk => (h.1.2.2.2.2 rk hrk).2.2.1),
    initial_guess_length args (fun a ha => (hok.2.2.2.2 a ha).2.2)]
  have h2 := congrArg (List.map (fun A : Slice K => A.local_n)) h.2.1
  rw [List.map_map, List.map_map] at h2
  exact congrArg List.sum h2

/-- C11. In exact arithmetic, on every well-formed input (any matrix, `b`, initial guess
`x0` and process count with an exact block partition, `global_n + p - 1 < 2^31`): the
first loop test of `cg_solver`
is reached, and at every evaluation of the loop test the ranks hold the slices of the
input, the stored `r` equals `b - A * (x - x0)` on the local rows of every rank (`x` the
current global iterate, `x0` the global content of `x` on entry), and `delta` is the sum
over the ranks of `dot(r, r)`; hence the stored `r` of a rank is the true residual
`b - A x` if and only if `A x0 = 0` on its rows, in particular when `x0 = 0`. -/
theorem C11_stored_residual_invariant {K : Type} [LinearOrderedField K]
    (args : List (Args K)) (global_n : Nat) (tol : K) (hok : args_ok args global_n) :
    (∃ s0, cg_solver.at_test args global_n tol 0 = some s0) ∧
    ∀ (k : Nat) (s : Run K), cg_solver.at_test args global_n tol k = some s →
      s.ranks.map (fun rk => rk.A) = args.map (fun a => a.A) ∧
      (∀ rk ∈ s.ranks, rk.r = (List.range rk.A.local_n).map (fun i =>
        rk.A.b.getD i 0 - row_sum rk.A.ptr rk.A.cols rk.A.vals
          (vec_sub (solution s.ranks) (initial_guess args)) i)) ∧
      s.delta = dot_allreduce (s.ranks.map (fun rk => dot rk.r rk.r rk.A.local_n)) ∧
      (∀ rk ∈ s.ranks, (rk.r = true_residual rk.A (solution s.ranks) ↔
        ∀ i < rk.A.local_n,
          row_sum rk.A.ptr rk.A.cols rk.A.vals (initial_guess args) i = 0)) ∧
      ((∀ y ∈ initial_guess args, y = 0) →
        ∀ rk ∈ s.ranks, rk.r = true_residual rk.A (solution s.ranks)) := by
  constructor
  · obtain ⟨s0, hs0, _⟩ := cg_inv_init args global_n hok
    refine ⟨s0, ?_⟩
    unfold cg_solver.at_test
    rw [hs0]
  · intro k s hs
    have hinv := cg_inv_at_test args global_n tol hok k s hs
    have hlen := cg_inv_lengths args global_n s hok hinv
    have hiff : ∀ rk ∈ s.ranks, (rk.r = true_residual rk.A (solution s.ranks) ↔
        ∀ i < rk.A.local_n,
          row_sum rk.A.ptr rk.A.cols rk.A.vals (initial_guess args) i = 0) := by
      intro rk hrk
      rw [hinv.2.2.2.1 rk hrk]
      unfold stored_residual true_residual
      rw [List.map_inj_left]
      constructor
      · intro h i hi
        have := h i (List.mem_range.mpr hi)
        linear_combination this
      · intro h i hi
        rw [h i (List.mem_range.mp hi)]
        ring
    refine ⟨hinv.2.1, ?_, hinv.2.2.2.2.1, hiff, ?_⟩
    · intro rk hrk
      rw [hinv.2.2.2.1 rk hrk]
      unfold stored_residual
      apply List.map_congr_left
      intro i _
      rw [row_sum_vec_sub _ _ _ _ _ hlen]
    · intro hz rk hrk
      exact (hiff rk hrk).mpr (fun i _ => row_sum_zero _ _ _ _ hz i)

/-- C11 on `1 * x = 1` with the nonzero initial guess `x0 = 1`, at the second loop test:
`x = 2`, the stored `r = [0]` is `b - A (x - x0)`, and it is not the true residual
`b - A x = [-1]`, because `A x0 = 1` is not zero. -/
theorem C11_stored_residual_invariant_witness :
    (args_ok (one_by_one_args 1) 1 ∧
      cg_solver.at_test (one_by_one_args 1) 1 (1 / 2) 1 = some (one_by_one_final 1)) ∧
    ((one_by_one_final 1).ranks.map (fun rk => rk.A)
        = (one_by_one_args 1).map (fun a => a.A) ∧
      (∀ rk ∈ (one_by_one_final 1).ranks, rk.r = (List.range rk.A.local_n).map (fun i =>
        rk.A.b.getD i 0 - row_sum rk.A.ptr rk.A.cols rk.A.vals
          (vec_sub (solution (one_by_one_final 1).ranks)
            (initial_guess (one_by_one_args 1))) i)) ∧
      (one_by_one_final 1).delta = dot_allreduce ((one_by_one_final 1).ranks.map
        (fun rk => dot rk.r rk.r rk.A.local_n)) ∧
      (∀ rk ∈ (one_by_one_final 1).ranks,
        (rk.r = true_residual rk.A (solution (one_by_one_final 1).ranks) ↔
          ∀ i < rk.A.local_n,
            row_sum rk.A.ptr rk.A.cols rk.A.vals (initial_guess (one_by_one_args 1)) i = 0)) ∧
      ((∀ y ∈ initial_guess (one_by_one_args 1), y = 0) →
        ∀ rk ∈ (one_by_one_final 1).ranks,
          rk.r = true_residual rk.A (solution (one_by_one_final 1).ranks))) ∧
    ((one_by_one_final 1).ranks.map (fun rk => rk.r) = [[0]] ∧
      (one_by_one_final 1).ranks.map
        (fun rk => true_residual rk.A (solution (one_by_one_final 1).ranks)) = [[-1]]) :=
  ⟨⟨by decide!, by decide!⟩,
    (C11_stored_residual_invariant (one_by_one_args 1) 1 (1 / 2) (by decide!)).2 1
      (one_by_one_final 1) (by decide!),
    ⟨by decide!, by decide!⟩⟩

end CsrCg
